import Mathlib

/-!
# wavcorr.c: similarity scoring, window searches and overlap-add

A shallow embedding of the numeric kernel of `src/wavcorr.c`.

Modelling conventions.

* A `short*` argument is the function from an index to the sample stored at that
  index (`Int → Int`); pointer arithmetic `seq + k` is the function `fun i => seq (k + i)`.
* C `int` values are integers (`Int`); the `int` expressions that can overflow (`w1 + w`
  in `autocorrs16`, `i * length`, `i + outlen` and `outlen * 2` in `psolas16`,
  `offset + window` in the entry points) are reduced modulo `2^32` (`wrap32`).  A loop
  `for (w = window0; w <= window1; w++)` visits `window0, ..., window1`.
  `window1 % w` is the truncated remainder (`Int.tmod`), and a zero divisor makes the
  search fail (`none`).
* The searches only compare scores: they are defined for an arbitrary similarity
  function `sim` with values in a linearly ordered type `S` (for the compiled code, the
  `double` values computed by `calcsims16`), and `autocorrs16`, `autosplices16` are their
  instances at `calcsims16`.
* Where the arithmetic itself matters, `double` values are elements of a linearly ordered
  field `F` with a square root function `sqrt` (and a cosine `cos` and a constant `pi`
  for `hann`); the definitions are generic in `F` so that they stay executable.  The
  statements marked "over the reals" take `F = ℝ` with `sqrt = Real.sqrt`,
  `cos = Real.cos`, `pi = Real.pi`; rounding is not modelled.  The constant `M_PI` of the
  code is the double nearest to `π`, an exact rational.
-/

namespace Wavcorr

/-- The three accumulators `n1`, `n2`, `dot` of `calcsims16`. -/
structure Sums (F : Type) where
  n1 : F
  n2 : F
  dot : F

/-- One iteration of the loop of `calcsims16` (source lines 22-26). -/
def calcsims16Step {F : Type} [LinearOrderedField F] (seq1 seq2 : Int → Int)
    (acc : Sums F) (i : Nat) : Sums F :=
  let x1 : F := ((seq1 (i : Int) : Int) : F) / 32768
  let x2 : F := ((seq2 (i : Int) : Int) : F) / 32768
  { n1 := acc.n1 + x1 * x1, n2 := acc.n2 + x2 * x2, dot := acc.dot + x1 * x2 }

/-- The loop `for (i = 0; i < window; i++)` of `calcsims16`, started from
`n1 = 0, n2 = 0, dot = 0`. -/
def calcsims16Sums {F : Type} [LinearOrderedField F] (window : Int) (seq1 seq2 : Int → Int) :
    Sums F :=
  (List.range window.toNat).foldl (calcsims16Step seq1 seq2) { n1 := 0, n2 := 0, dot := 0 }

/-- The function `calcsims16`: `return (n1*n2)? (dot/sqrt(n1*n2)) : 0`. -/
def calcsims16 {F : Type} [LinearOrderedField F] (sqrt : F → F) (window : Int)
    (seq1 seq2 : Int → Int) : F :=
  let s : Sums F := calcsims16Sums window seq1 seq2
  if s.n1 * s.n2 ≠ 0 then s.dot / sqrt (s.n1 * s.n2) else 0

/-- The function `calcsims16` with the division checked: the result is `none` when the
division `dot/sqrt(n1*n2)` is executed with a zero divisor. -/
def calcsims16Checked {F : Type} [LinearOrderedField F] (sqrt : F → F) (window : Int)
    (seq1 seq2 : Int → Int) : Option F :=
  let s : Sums F := calcsims16Sums window seq1 seq2
  if s.n1 * s.n2 ≠ 0 then
    (if sqrt (s.n1 * s.n2) = 0 then none else some (s.dot / sqrt (s.n1 * s.n2)))
  else some 0

/-- The values `w = window0, window0 + 1, ..., window1` taken by the loop variable of
`for (w = window0; w <= window1; w++)`. -/
def candidates (window0 window1 : Int) : List Int :=
  (List.range (window1 + 1 - window0).toNat).map (fun k : Nat => window0 + (k : Int))

/-- A value of C type `int` (32 bits): the integer reduced modulo `2^32` into
`[-2^31, 2^31)`. -/
def wrap32 (x : Int) : Int :=
  (x + 2147483648) % 4294967296 - 2147483648

/-- The update `if (smax < s) { wmax = w; smax = s; }` on the pair `(wmax, smax)`; the
scores are compared in a linearly ordered type `S`. -/
def keepBest {S : Type} [LinearOrder S] (st : Int × S) (w : Int) (s : S) : Int × S :=
  if st.2 < s then (w, s) else st

/-- The body of the loop of `autocorrs16` (source lines 45-52), with the call
`calcsims16(w1, seq, seq+w)` given as `sim w1 seq (seq+w)`.  The result is `none` when the
remainder `window1 % w` has a zero divisor; the sum `w1+w` of the guard is an `int`
sum. -/
def autocorrs16Body {S : Type} [LinearOrder S] (sim : Int → (Int → Int) → (Int → Int) → S)
    (window1 length : Int) (seq : Int → Int) (st : Int × S) (w : Int) : Option (Int × S) :=
  if w = 0 then none
  else
    let w1 : Int := window1 - Int.tmod window1 w
    if wrap32 (w1 + w) ≤ length then
      some (keepBest st w (sim w1 seq (fun i => seq (w + i))))
    else some st

/-- The function `autocorrs16` with the similarity function `sim` in place of
`calcsims16` and `init` in place of the initial score `-1`; the result is the pair
`(wmax, smax)` (return value and `*psim`). -/
def autocorrs16With {S : Type} [LinearOrder S] (sim : Int → (Int → Int) → (Int → Int) → S)
    (init : S) (window0 window1 length : Int) (seq : Int → Int) : Option (Int × S) :=
  let lo : Int := if window1 < window0 then window1 else window0
  let hi : Int := if window1 < window0 then window0 else window1
  (candidates lo hi).foldlM (autocorrs16Body sim hi length seq) ((0 : Int), init)

/-- The function `autocorrs16`: the search with the scores of `calcsims16` and the
initial score `-1`. -/
def autocorrs16 {F : Type} [LinearOrderedField F] (sqrt : F → F) (window0 window1 length : Int)
    (seq : Int → Int) : Option (Int × F) :=
  autocorrs16With (calcsims16 sqrt) (-1 : F) window0 window1 length seq

/-- The body of the loop of `autosplices16` (source lines 74-80), with the call
`calcsims16(w, seq1+length1-w, seq2)` given as `sim w (seq1+length1-w) seq2`. -/
def autosplices16Body {S : Type} [LinearOrder S] (sim : Int → (Int → Int) → (Int → Int) → S)
    (length1 : Int) (seq1 : Int → Int) (length2 : Int) (seq2 : Int → Int) (st : Int × S)
    (w : Int) : Int × S :=
  if w ≤ length1 ∧ w ≤ length2 then
    keepBest st w (sim w (fun i => seq1 (length1 - w + i)) seq2)
  else st

/-- The function `autosplices16` with the similarity function `sim` in place of
`calcsims16` and `init` in place of the initial score `-1`. -/
def autosplices16With {S : Type} [LinearOrder S]
    (sim : Int → (Int → Int) → (Int → Int) → S) (init : S) (window0 window1 : Int)
    (length1 : Int) (seq1 : Int → Int) (length2 : Int) (seq2 : Int → Int) : Int × S :=
  let lo : Int := if window1 < window0 then window1 else window0
  let hi : Int := if window1 < window0 then window0 else window1
  (candidates lo hi).foldl (autosplices16Body sim length1 seq1 length2 seq2) ((0 : Int), init)

/-- The function `autosplices16`: the search with the scores of `calcsims16` and the
initial score `-1`; the result is the pair `(wmax, smax)`. -/
def autosplices16 {F : Type} [LinearOrderedField F] (sqrt : F → F) (window0 window1 : Int)
    (length1 : Int) (seq1 : Int → Int) (length2 : Int) (seq2 : Int → Int) : Int × F :=
  autosplices16With (calcsims16 sqrt) (-1 : F) window0 window1 length1 seq1 length2 seq2

/-- A buffer given by the list of its samples, read as a `short*` at its first sample. -/
def ofList (l : List Int) : Int → Int :=
  fun i => if 0 ≤ i then l.getD i.toNat 0 else 0

/-- The feasibility guard of `autocorrs16` for the candidate `w`, as the code evaluates
it: `w1 + w <= length` with `w1 = hi - hi % w` and the sum taken in `int`. -/
def corrFeasible (hi length w : Int) : Prop :=
  wrap32 ((hi - Int.tmod hi w) + w) ≤ length

instance (hi length w : Int) : Decidable (corrFeasible hi length w) := by
  unfold corrFeasible; infer_instance

/-- The score of the candidate `w` in the period search: `sim(w1, seq, seq+w)` with
`w1 = hi - hi % w`. -/
def corrScoreWith {S : Type} (sim : Int → (Int → Int) → (Int → Int) → S) (hi : Int)
    (seq : Int → Int) (w : Int) : S :=
  sim (hi - Int.tmod hi w) seq (fun i => seq (w + i))

/-- The score of the candidate `w` in `autocorrs16`:
`calcsims16(w1, seq, seq+w)` with `w1 = hi - hi % w`. -/
def corrScore {F : Type} [LinearOrderedField F] (sqrt : F → F) (hi : Int) (seq : Int → Int)
    (w : Int) : F :=
  calcsims16 sqrt (hi - Int.tmod hi w) seq (fun i => seq (w + i))

/-- The feasibility guard of `autosplices16` for the candidate `w`. -/
def spliceFeasible (length1 length2 w : Int) : Prop :=
  w ≤ length1 ∧ w ≤ length2

instance (length1 length2 w : Int) : Decidable (spliceFeasible length1 length2 w) := by
  unfold spliceFeasible; infer_instance

/-- The score of the candidate `w` in the splice search:
`sim(w, seq1+length1-w, seq2)`. -/
def spliceScoreWith {S : Type} (sim : Int → (Int → Int) → (Int → Int) → S) (length1 : Int)
    (seq1 seq2 : Int → Int) (w : Int) : S :=
  sim w (fun i => seq1 (length1 - w + i)) seq2

/-- The score of the candidate `w` in `autosplices16`:
`calcsims16(w, seq1+length1-w, seq2)`. -/
def spliceScore {F : Type} [LinearOrderedField F] (sqrt : F → F) (length1 : Int)
    (seq1 seq2 : Int → Int) (w : Int) : F :=
  calcsims16 sqrt w (fun i => seq1 (length1 - w + i)) seq2

/-- The buffer of scenario 2 of the specification: `[1000, -1000, 500]` repeated four
times. -/
def periodicBuffer : Int → Int :=
  ofList [1000, -1000, 500, 1000, -1000, 500, 1000, -1000, 500, 1000, -1000, 500]

/-- The buffer `seqA = [10, 20, 30]` of scenario 3 of the specification. -/
def spliceBufferA : Int → Int := ofList [10, 20, 30]

/-- The buffer `seqB = [10, 20, 30, 40]` of scenario 3 of the specification. -/
def spliceBufferB : Int → Int := ofList [10, 20, 30, 40]

/-- The common shape of the two loop bodies: when the guard `feas w` holds, the score of
`w` is offered to `keepBest`. -/
def sweep {S : Type} [LinearOrder S] (feas : Int → Prop) [DecidablePred feas]
    (score : Int → S) (st : Int × S) (w : Int) : Int × S :=
  if feas w then keepBest st w (score w) else st

/-- The errors raised by the Python entry points before the core is invoked. -/
inductive PyError where
  | valueError (msg : String)
  deriving DecidableEq

/-- The entry point `pyautocorrs16(window0, window1, data, offset)` once its arguments are
parsed and `data` is a string: `data` is the list of its 16-bit samples, so that
`length = PyString_Size(data) / sizeof(short)` is the length of the list; the sums
`offset+window0` and `offset+window1` of the validation are `int` sums.  The result is the
error raised by the validation, or the outcome of the core `autocorrs16`. -/
def pyautocorrs16 {F : Type} [LinearOrderedField F] (sqrt : F → F) (window0 window1 : Int)
    (data : List Int) (offset : Int) : Except PyError (Option (Int × F)) :=
  let length : Int := (data.length : Int)
  if window0 < 0 ∨ window1 < 0 ∨ offset < 0 ∨ length < wrap32 (offset + window0)
      ∨ length < wrap32 (offset + window1) then
    Except.error (PyError.valueError "Invalid offset/window")
  else
    Except.ok (autocorrs16 sqrt window0 window1 (length - offset)
      (fun i => ofList data (offset + i)))

/-- The source index `i*length/outlen` of `psolas16`: the product is computed in `int`
arithmetic (modulo `2^32`) and the division truncates. -/
def psolasIndex (i length outlen : Int) : Int :=
  Int.tdiv (wrap32 (i * length)) outlen

/-- The function `hann`: `(1.0-cos(2.0*M_PI*i/n))/2.0`. -/
def hann {F : Type} [LinearOrderedField F] (cos : F → F) (pi : F) (i n : Int) : F :=
  (1 - cos (2 * pi * ((i : Int) : F) / ((n : Int) : F))) / 2

/-- Truncation of a `double` toward zero. -/
def truncZ {F : Type} [LinearOrderedField F] [FloorRing F] (v : F) : Int :=
  if 0 ≤ v then Int.floor v else Int.ceil v

/-- A value of C type `short` (16 bits): the integer reduced modulo `2^16` into
`[-32768, 32768)`. -/
def wrap16 (x : Int) : Int :=
  (x + 32768) % 65536 - 32768

/-- The narrowing cast `(short)v`: truncation toward zero, then reduction to 16 bits. -/
def toShort {F : Type} [LinearOrderedField F] [FloorRing F] (v : F) : Int :=
  wrap16 (truncZ v)

/-- The value `v` accumulated by `psolas16` for the output index `i` (source lines
96-104); the arguments `i+outlen` and `outlen*2` of `hann` are `int` expressions. -/
def psolas16Value {F : Type} [LinearOrderedField F] (cos : F → F) (pi : F) (outlen : Int)
    (length1 : Int) (seq1 : Int → Int) (length2 : Int) (seq2 : Int → Int) (i : Int) : F :=
  let v0 : F := 0
  let v1 : F :=
    if 0 < length1 then
      v0 + ((seq1 (psolasIndex i length1 outlen) : Int) : F)
        * hann cos pi (wrap32 (i + outlen)) (wrap32 (outlen * 2))
    else v0
  if 0 < length2 then
    v1 + ((seq2 (psolasIndex i length2 outlen) : Int) : F) * hann cos pi i (wrap32 (outlen * 2))
  else v1

/-- The stores `out[i] = (short)v` performed by the loop `for (i = 0; i < outlen; i++)` of
`psolas16`, in order: the position and the value stored. -/
def psolas16Trace {F : Type} [LinearOrderedField F] [FloorRing F] (cos : F → F) (pi : F)
    (outlen : Int) (length1 : Int) (seq1 : Int → Int) (length2 : Int) (seq2 : Int → Int) :
    List (Nat × Int) :=
  (List.range outlen.toNat).map (fun i : Nat =>
    (i, toShort (psolas16Value cos pi outlen length1 seq1 length2 seq2 (i : Int))))

/-- The function `psolas16`: the stores of the loop applied to the buffer `out`. -/
def psolas16 {F : Type} [LinearOrderedField F] [FloorRing F] (cos : F → F) (pi : F)
    (outlen : Int) (out : List Int) (length1 : Int) (seq1 : Int → Int) (length2 : Int)
    (seq2 : Int → Int) : List Int :=
  (psolas16Trace cos pi outlen length1 seq1 length2 seq2).foldl
    (fun (o : List Int) (st : Nat × Int) => o.set st.1 st.2) out

/-- The buffer returned by `PyMem_Malloc(sizeof(short)*n)`: `n` samples of unspecified
content `garbage`. -/
def mallocShorts (garbage : Nat → Int) (n : Nat) : List Int :=
  (List.range n).map garbage

/-- The entry point `pypsolas16(outlen, offset1, window1, data1, offset2, window2, data2)`
once its arguments are parsed, both data are strings and the allocation succeeds; the
sums `offset1+window1` and `offset2+window2` of the validation are `int` sums.  The result
is the error raised by the validation, or the list of the samples of the returned
string. -/
def pypsolas16 {F : Type} [LinearOrderedField F] [FloorRing F] (cos : F → F) (pi : F)
    (outlen offset1 window1 : Int) (data1 : List Int) (offset2 window2 : Int)
    (data2 : List Int) (garbage : Nat → Int) : Except PyError (List Int) :=
  let length1 : Int := (data1.length : Int)
  let length2 : Int := (data2.length : Int)
  if window1 < 0 ∨ window2 < 0 ∨ offset1 < 0 ∨ length1 < wrap32 (offset1 + window1)
      ∨ offset2 < 0 ∨ length2 < wrap32 (offset2 + window2) then
    Except.error (PyError.valueError "Invalid offset/window")
  else if outlen ≤ 0 then
    Except.error (PyError.valueError "Invalid outlen")
  else
    Except.ok (psolas16 cos pi outlen (mallocShorts garbage outlen.toNat)
      window1 (fun i => ofList data1 (offset1 + i))
      window2 (fun i => ofList data2 (offset2 + i)))

/-- Every sample of the sequence is a 16-bit value (as every `short` is). -/
def IsShort (seq : Int → Int) : Prop :=
  ∀ j : Int, -32768 ≤ seq j ∧ seq j ≤ 32767

/-- The indices `i` at which `calcsims16` reads `seq1[i]` and `seq2[i]` (source lines
22-23), in order. -/
def calcsims16Reads (window : Int) : List Int :=
  (List.range window.toNat).map (fun i : Nat => (i : Int))

/-- The indices of `seq` read by `autocorrs16` for the candidate `w`: when the guard
`w1 + w <= length` holds, the call `calcsims16(w1, seq, seq+w)` reads `seq[i]` and
`seq[w+i]` for every index `i` read by `calcsims16`. -/
def autocorrs16Reads (hi length w : Int) : List Int :=
  if corrFeasible hi length w then
    (calcsims16Reads (hi - Int.tmod hi w)).flatMap (fun i => [i, w + i])
  else []

/-- The indices of `seq1` read by `autosplices16` for the candidate `w`: the call
`calcsims16(w, seq1+length1-w, seq2)` reads `seq1[length1-w+i]`. -/
def autosplices16Reads1 (length1 length2 w : Int) : List Int :=
  if spliceFeasible length1 length2 w then
    (calcsims16Reads w).map (fun i => length1 - w + i)
  else []

/-- The indices of `seq2` read by `autosplices16` for the candidate `w`. -/
def autosplices16Reads2 (length1 length2 w : Int) : List Int :=
  if spliceFeasible length1 length2 w then calcsims16Reads w else []

/-- The loop body of `calcsims16` with the normalising constant `32768.0` replaced by
`c`. -/
def calcsims16StepWith {F : Type} [LinearOrderedField F] (c : F) (seq1 seq2 : Int → Int)
    (acc : Sums F) (i : Nat) : Sums F :=
  let x1 : F := ((seq1 (i : Int) : Int) : F) / c
  let x2 : F := ((seq2 (i : Int) : Int) : F) / c
  { n1 := acc.n1 + x1 * x1, n2 := acc.n2 + x2 * x2, dot := acc.dot + x1 * x2 }

/-- The function `calcsims16` with the normalising constant `32768.0` replaced by `c`. -/
def calcsims16With {F : Type} [LinearOrderedField F] (sqrt : F → F) (c : F) (window : Int)
    (seq1 seq2 : Int → Int) : F :=
  let s : Sums F :=
    (List.range window.toNat).foldl (calcsims16StepWith c seq1 seq2)
      { n1 := 0, n2 := 0, dot := 0 }
  if s.n1 * s.n2 ≠ 0 then s.dot / sqrt (s.n1 * s.n2) else 0

/-- The segment `[100, 200, 300, 400]` of scenario 4 of the specification. -/
def rampBuffer : Int → Int := ofList [100, 200, 300, 400]

/-- The segment of the failing run of the self-crossfade: a single sample `1` at index
`65535`, zero elsewhere. -/
def spikeSegment : Int → Int :=
  fun j => if j = 65535 then 1 else 0

/-! ## The accumulators as finite sums -/

theorem calcsims16Sums_foldl (seq1 seq2 : Int → Int) (n : Nat) :
    (List.range n).foldl (calcsims16Step seq1 seq2) ({ n1 := 0, n2 := 0, dot := 0 } : Sums ℝ)
      = { n1 := ∑ i in Finset.range n, ((seq1 (i : Int) : ℝ) / 32768) ^ 2,
          n2 := ∑ i in Finset.range n, ((seq2 (i : Int) : ℝ) / 32768) ^ 2,
          dot := ∑ i in Finset.range n,
            ((seq1 (i : Int) : ℝ) / 32768) * ((seq2 (i : Int) : ℝ) / 32768) } := by
  induction n with
  | zero => simp
  | succ n ih =>
    rw [List.range_succ, List.foldl_append, ih]
    simp [calcsims16Step, Finset.sum_range_succ, pow_two]

theorem calcsims16Sums_eq (window : Int) (seq1 seq2 : Int → Int) :
    (calcsims16Sums window seq1 seq2 : Sums ℝ)
      = { n1 := ∑ i in Finset.range window.toNat, ((seq1 (i : Int) : ℝ) / 32768) ^ 2,
          n2 := ∑ i in Finset.range window.toNat, ((seq2 (i : Int) : ℝ) / 32768) ^ 2,
          dot := ∑ i in Finset.range window.toNat,
            ((seq1 (i : Int) : ℝ) / 32768) * ((seq2 (i : Int) : ℝ) / 32768) } :=
  calcsims16Sums_foldl seq1 seq2 window.toNat

theorem sums_n1_eq (window : Int) (seq1 seq2 : Int → Int) :
    (calcsims16Sums window seq1 seq2 : Sums ℝ).n1
      = ∑ i in Finset.range window.toNat, ((seq1 (i : Int) : ℝ) / 32768) ^ 2 :=
  congrArg Sums.n1 (calcsims16Sums_eq window seq1 seq2)

theorem sums_n2_eq (window : Int) (seq1 seq2 : Int → Int) :
    (calcsims16Sums window seq1 seq2 : Sums ℝ).n2
      = ∑ i in Finset.range window.toNat, ((seq2 (i : Int) : ℝ) / 32768) ^ 2 :=
  congrArg Sums.n2 (calcsims16Sums_eq window seq1 seq2)

theorem sums_dot_eq (window : Int) (seq1 seq2 : Int → Int) :
    (calcsims16Sums window seq1 seq2 : Sums ℝ).dot
      = ∑ i in Finset.range window.toNat,
          ((seq1 (i : Int) : ℝ) / 32768) * ((seq2 (i : Int) : ℝ) / 32768) :=
  congrArg Sums.dot (calcsims16Sums_eq window seq1 seq2)

theorem sums_n1_nonneg (window : Int) (seq1 seq2 : Int → Int) :
    0 ≤ (calcsims16Sums window seq1 seq2 : Sums ℝ).n1 := by
  rw [sums_n1_eq]
  exact Finset.sum_nonneg (fun i _ => sq_nonneg _)

theorem sums_n2_nonneg (window : Int) (seq1 seq2 : Int → Int) :
    0 ≤ (calcsims16Sums window seq1 seq2 : Sums ℝ).n2 := by
  rw [sums_n2_eq]
  exact Finset.sum_nonneg (fun i _ => sq_nonneg _)

/-- Cauchy-Schwarz for the accumulators: `dot^2 ≤ n1 * n2`. -/
theorem sums_dot_sq_le (window : Int) (seq1 seq2 : Int → Int) :
    (calcsims16Sums window seq1 seq2 : Sums ℝ).dot ^ 2
      ≤ (calcsims16Sums window seq1 seq2 : Sums ℝ).n1
        * (calcsims16Sums window seq1 seq2 : Sums ℝ).n2 := by
  rw [sums_n1_eq, sums_n2_eq, sums_dot_eq]
  exact Finset.sum_mul_sq_le_sq_mul_sq _ _ _

/-- The quotient `dot / sqrt n` lies in `[-1, 1]` as soon as `dot^2 ≤ n` and `n` is
positive. -/
theorem quotient_bounds (n dot : ℝ) (hn : 0 < n) (h : dot ^ 2 ≤ n) :
    -1 ≤ dot / Real.sqrt n ∧ dot / Real.sqrt n ≤ 1 := by
  have hs : 0 < Real.sqrt n := Real.sqrt_pos.mpr hn
  have habs : |dot| ≤ Real.sqrt n := Real.abs_le_sqrt h
  have h2 := abs_le.mp habs
  constructor
  · rw [le_div_iff₀ hs]; linarith [h2.1]
  · rw [div_le_one hs]; exact h2.2

theorem sums_prod_pos (window : Int) (seq1 seq2 : Int → Int)
    (hne : (calcsims16Sums window seq1 seq2 : Sums ℝ).n1
        * (calcsims16Sums window seq1 seq2 : Sums ℝ).n2 ≠ 0) :
    (0 : ℝ) < (calcsims16Sums window seq1 seq2 : Sums ℝ).n1
        * (calcsims16Sums window seq1 seq2 : Sums ℝ).n2 :=
  lt_of_le_of_ne (mul_nonneg (sums_n1_nonneg _ _ _) (sums_n2_nonneg _ _ _)) (Ne.symm hne)

theorem calcsims16_ge (window : Int) (seq1 seq2 : Int → Int) :
    -1 ≤ calcsims16 Real.sqrt window seq1 seq2 := by
  unfold calcsims16
  simp only []
  split
  · rename_i hne
    exact (quotient_bounds _ _ (sums_prod_pos _ _ _ hne) (sums_dot_sq_le window seq1 seq2)).1
  · norm_num

theorem calcsims16_le (window : Int) (seq1 seq2 : Int → Int) :
    calcsims16 Real.sqrt window seq1 seq2 ≤ 1 := by
  unfold calcsims16
  simp only []
  split
  · rename_i hne
    exact (quotient_bounds _ _ (sums_prod_pos _ _ _ hne) (sums_dot_sq_le window seq1 seq2)).2
  · norm_num

/-- The checked division never has a zero divisor: the checked function always returns
the value of `calcsims16`. -/
theorem calcsims16Checked_eq (window : Int) (seq1 seq2 : Int → Int) :
    calcsims16Checked Real.sqrt window seq1 seq2
      = some (calcsims16 Real.sqrt window seq1 seq2) := by
  unfold calcsims16Checked calcsims16
  simp only []
  split
  · rename_i hne
    rw [if_neg (ne_of_gt (Real.sqrt_pos.mpr (sums_prod_pos _ _ _ hne)))]
  · rfl

/-- The accumulators only depend on the samples at the indices `0 ≤ i < window`. -/
theorem calcsims16Sums_congr (window : Int) (a b c d : Int → Int)
    (hac : ∀ i : Int, 0 ≤ i → i < window → a i = c i)
    (hbd : ∀ i : Int, 0 ≤ i → i < window → b i = d i) :
    (calcsims16Sums window a b : Sums ℝ) = calcsims16Sums window c d := by
  have hmem : ∀ i ∈ Finset.range window.toNat,
      a (i : Int) = c (i : Int) ∧ b (i : Int) = d (i : Int) := by
    intro i hi
    have hi2 : i < window.toNat := Finset.mem_range.mp hi
    have h0 : (0 : Int) ≤ (i : Int) := Int.ofNat_nonneg i
    have h1 : (i : Int) < window := by omega
    exact ⟨hac _ h0 h1, hbd _ h0 h1⟩
  rw [calcsims16Sums_eq, calcsims16Sums_eq]
  congr 1
  · exact Finset.sum_congr rfl (fun i hi => by rw [(hmem i hi).1])
  · exact Finset.sum_congr rfl (fun i hi => by rw [(hmem i hi).2])
  · exact Finset.sum_congr rfl (fun i hi => by rw [(hmem i hi).1, (hmem i hi).2])

theorem calcsims16_congr (window : Int) (a b c d : Int → Int)
    (hac : ∀ i : Int, 0 ≤ i → i < window → a i = c i)
    (hbd : ∀ i : Int, 0 ≤ i → i < window → b i = d i) :
    calcsims16 Real.sqrt window a b = calcsims16 Real.sqrt window c d := by
  unfold calcsims16
  rw [calcsims16Sums_congr window a b c d hac hbd]

/-- Comparing a window with itself: the score is `1` when the energy is positive. -/
theorem calcsims16_self_of_pos (window : Int) (a : Int → Int)
    (hpos : 0 < (calcsims16Sums window a a : Sums ℝ).n1) :
    calcsims16 Real.sqrt window a a = 1 := by
  have h2 : (calcsims16Sums window a a : Sums ℝ).n2 = (calcsims16Sums window a a : Sums ℝ).n1 := by
    rw [sums_n1_eq, sums_n2_eq]
  have h3 : (calcsims16Sums window a a : Sums ℝ).dot = (calcsims16Sums window a a : Sums ℝ).n1 := by
    rw [sums_n1_eq, sums_dot_eq]
    exact Finset.sum_congr rfl (fun i _ => (pow_two _).symm)
  unfold calcsims16
  simp only []
  rw [h2, h3]
  have hne : (calcsims16Sums window a a : Sums ℝ).n1 * (calcsims16Sums window a a : Sums ℝ).n1 ≠ 0 :=
    ne_of_gt (mul_pos hpos hpos)
  rw [if_pos hne, Real.sqrt_mul_self (le_of_lt hpos)]
  exact div_self (ne_of_gt hpos)

/-- The first accumulator is positive when some sample of the window is not zero. -/
theorem sums_n1_pos (window : Int) (a b : Int → Int)
    (h : ∃ i : Int, 0 ≤ i ∧ i < window ∧ a i ≠ 0) :
    0 < (calcsims16Sums window a b : Sums ℝ).n1 := by
  obtain ⟨i, h0, h1, hne⟩ := h
  rw [sums_n1_eq]
  have hmem : i.toNat ∈ Finset.range window.toNat := by
    rw [Finset.mem_range]; omega
  have hcast : ((i.toNat : Nat) : Int) = i := Int.toNat_of_nonneg h0
  have hterm : (0 : ℝ) < ((a ((i.toNat : Nat) : Int) : ℝ) / 32768) ^ 2 := by
    rw [hcast]
    have : ((a i : Int) : ℝ) ≠ 0 := Int.cast_ne_zero.mpr hne
    positivity
  exact lt_of_lt_of_le hterm
    (Finset.single_le_sum (f := fun k : Nat => ((a (k : Int) : ℝ) / 32768) ^ 2)
      (fun k _ => sq_nonneg _) hmem)

/-- The first accumulator vanishes when every sample of the first window is zero. -/
theorem sums_n1_zero (window : Int) (a b : Int → Int)
    (h : ∀ i : Int, 0 ≤ i → i < window → a i = 0) :
    (calcsims16Sums window a b : Sums ℝ).n1 = 0 := by
  rw [sums_n1_eq]
  apply Finset.sum_eq_zero
  intro i hi
  have hi2 : i < window.toNat := Finset.mem_range.mp hi
  have h1 : (i : Int) < window := by omega
  rw [h _ (Int.ofNat_nonneg i) h1]
  simp

/-- The second accumulator vanishes when every sample of the second window is zero. -/
theorem sums_n2_zero (window : Int) (a b : Int → Int)
    (h : ∀ i : Int, 0 ≤ i → i < window → b i = 0) :
    (calcsims16Sums window a b : Sums ℝ).n2 = 0 := by
  rw [sums_n2_eq]
  apply Finset.sum_eq_zero
  intro i hi
  have hi2 : i < window.toNat := Finset.mem_range.mp hi
  have h1 : (i : Int) < window := by omega
  rw [h _ (Int.ofNat_nonneg i) h1]
  simp

/-- Swapping the two sequences swaps `n1` and `n2` and keeps `dot`. -/
theorem calcsims16_swap (window : Int) (a b : Int → Int) :
    calcsims16 Real.sqrt window a b = calcsims16 Real.sqrt window b a := by
  have h1 : (calcsims16Sums window a b : Sums ℝ).n1 = (calcsims16Sums window b a : Sums ℝ).n2 := by
    rw [sums_n1_eq, sums_n2_eq]
  have h2 : (calcsims16Sums window a b : Sums ℝ).n2 = (calcsims16Sums window b a : Sums ℝ).n1 := by
    rw [sums_n1_eq, sums_n2_eq]
  have h3 : (calcsims16Sums window a b : Sums ℝ).dot = (calcsims16Sums window b a : Sums ℝ).dot := by
    rw [sums_dot_eq, sums_dot_eq]
    exact Finset.sum_congr rfl (fun i _ => mul_comm _ _)
  unfold calcsims16
  simp only []
  rw [h1, h2, h3, mul_comm (calcsims16Sums window b a : Sums ℝ).n2]

/-- The score is `0` as soon as one of the two energies vanishes. -/
theorem calcsims16_zero_of_prod (window : Int) (a b : Int → Int)
    (h : (calcsims16Sums window a b : Sums ℝ).n1 * (calcsims16Sums window a b : Sums ℝ).n2 = 0) :
    calcsims16 Real.sqrt window a b = 0 := by
  unfold calcsims16
  simp only []
  rw [if_neg (not_not.mpr h)]

/-! ## The search loops -/

theorem mem_candidates (lo hi w : Int) : w ∈ candidates lo hi ↔ lo ≤ w ∧ w ≤ hi := by
  unfold candidates
  rw [List.mem_map]
  constructor
  · rintro ⟨k, hk, rfl⟩
    have hk2 : k < (hi + 1 - lo).toNat := List.mem_range.mp hk
    omega
  · rintro ⟨h1, h2⟩
    refine ⟨(w - lo).toNat, List.mem_range.mpr (by omega), by omega⟩

theorem autosplices16Body_eq {S : Type} [LinearOrder S]
    (sim : Int → (Int → Int) → (Int → Int) → S) (length1 : Int) (seq1 : Int → Int)
    (length2 : Int) (seq2 : Int → Int) (st : Int × S) (w : Int) :
    autosplices16Body sim length1 seq1 length2 seq2 st w
      = sweep (spliceFeasible length1 length2) (spliceScoreWith sim length1 seq1 seq2) st w := by
  rfl

theorem autocorrs16Body_eq {S : Type} [LinearOrder S]
    (sim : Int → (Int → Int) → (Int → Int) → S) (hi length : Int) (seq : Int → Int)
    (st : Int × S) (w : Int) (hw : w ≠ 0) :
    autocorrs16Body sim hi length seq st w
      = some (sweep (corrFeasible hi length) (corrScoreWith sim hi seq) st w) := by
  unfold autocorrs16Body sweep corrFeasible corrScoreWith
  rw [if_neg hw]
  simp only []
  split <;> rfl

theorem autocorrs16Body_zero {S : Type} [LinearOrder S]
    (sim : Int → (Int → Int) → (Int → Int) → S) (hi length : Int) (seq : Int → Int)
    (st : Int × S) :
    autocorrs16Body sim hi length seq st 0 = none := by
  unfold autocorrs16Body
  rw [if_pos rfl]

theorem foldlM_autocorrs16Body {S : Type} [LinearOrder S]
    (sim : Int → (Int → Int) → (Int → Int) → S) (hi length : Int) (seq : Int → Int)
    (l : List Int) (hl : ∀ w ∈ l, w ≠ 0) (st : Int × S) :
    l.foldlM (autocorrs16Body sim hi length seq) st
      = some (l.foldl (sweep (corrFeasible hi length) (corrScoreWith sim hi seq)) st) := by
  induction l generalizing st with
  | nil => rfl
  | cons w l ih =>
    rw [List.foldlM_cons, autocorrs16Body_eq sim hi length seq st w (hl w (List.mem_cons_self w l))]
    simp only [Option.some_bind, Option.bind_eq_bind, List.foldl_cons]
    exact ih (fun v hv => hl v (List.mem_cons_of_mem w hv)) _

theorem foldl_autosplices16Body {S : Type} [LinearOrder S]
    (sim : Int → (Int → Int) → (Int → Int) → S) (length1 : Int) (seq1 : Int → Int)
    (length2 : Int) (seq2 : Int → Int) (l : List Int) (st : Int × S) :
    l.foldl (autosplices16Body sim length1 seq1 length2 seq2) st
      = l.foldl (sweep (spliceFeasible length1 length2)
          (spliceScoreWith sim length1 seq1 seq2)) st := by
  induction l generalizing st with
  | nil => rfl
  | cons w l ih =>
    rw [List.foldl_cons, List.foldl_cons, autosplices16Body_eq, ih]

/-- The loop invariant of the sweep over `lo, lo + 1, ..., lo + n - 1` started from
`(0, init)`: the running score dominates `init` and every feasible score seen so far, and
the running pair is either untouched or the first feasible candidate reaching the running
score, which is above `init`. -/
theorem sweep_invariant {S : Type} [LinearOrder S] (feas : Int → Prop) [DecidablePred feas]
    (score : Int → S) (init : S) (lo : Int) (n : Nat) :
    (∀ k : Nat, k < n → feas (lo + (k : Int)) → score (lo + (k : Int))
        ≤ (((List.range n).map (fun k : Nat => lo + (k : Int))).foldl
            (sweep feas score) ((0 : Int), init)).2) ∧
    ((((List.range n).map (fun k : Nat => lo + (k : Int))).foldl
        (sweep feas score) ((0 : Int), init)) = ((0 : Int), init) ∨
      ∃ k : Nat, k < n ∧
        (((List.range n).map (fun k : Nat => lo + (k : Int))).foldl
          (sweep feas score) ((0 : Int), init)).1 = lo + (k : Int) ∧
        feas (lo + (k : Int)) ∧
        score (lo + (k : Int)) = (((List.range n).map (fun k : Nat => lo + (k : Int))).foldl
          (sweep feas score) ((0 : Int), init)).2 ∧
        init < score (lo + (k : Int)) ∧
        ∀ j : Nat, j < k → feas (lo + (j : Int)) → score (lo + (j : Int)) < score (lo + (k : Int))) := by
  induction n with
  | zero =>
    refine ⟨fun k hk => absurd hk (Nat.not_lt_zero k), Or.inl rfl⟩
  | succ n ih =>
    rw [List.range_succ, List.map_append, List.foldl_append]
    simp only [List.map_cons, List.map_nil, List.foldl_cons, List.foldl_nil]
    generalize ((List.range n).map (fun k : Nat => lo + (k : Int))).foldl
      (sweep feas score) ((0 : Int), init) = st at ih ⊢
    obtain ⟨ihle, ihor⟩ := ih
    unfold sweep keepBest
    by_cases hf : feas (lo + (n : Int))
    · rw [if_pos hf]
      by_cases hlt : st.2 < score (lo + (n : Int))
      · rw [if_pos hlt]
        refine ⟨?_, Or.inr ⟨n, Nat.lt_succ_self n, rfl, hf, rfl, ?_, ?_⟩⟩
        · intro k hk hfk
          rcases Nat.lt_succ_iff_lt_or_eq.mp hk with h | h
          · exact le_of_lt (lt_of_le_of_lt (ihle k h hfk) hlt)
          · rw [h]
        · rcases ihor with h | ⟨k, _, _, _, hs, hk, _⟩
          · rw [h] at hlt; exact hlt
          · exact lt_trans hk (lt_of_eq_of_lt hs hlt)
        · intro j hj hfj
          exact lt_of_le_of_lt (ihle j hj hfj) hlt
      · rw [if_neg hlt]
        refine ⟨?_, ?_⟩
        · intro k hk hfk
          rcases Nat.lt_succ_iff_lt_or_eq.mp hk with h | h
          · exact ihle k h hfk
          · rw [h]; exact not_lt.mp hlt
        · rcases ihor with h | ⟨k, hk, h1, h2, h3, h4, h5⟩
          · exact Or.inl h
          · exact Or.inr ⟨k, Nat.lt_succ_of_lt hk, h1, h2, h3, h4, h5⟩
    · rw [if_neg hf]
      refine ⟨?_, ?_⟩
      · intro k hk hfk
        rcases Nat.lt_succ_iff_lt_or_eq.mp hk with h | h
        · exact ihle k h hfk
        · rw [h] at hfk; exact absurd hfk hf
      · rcases ihor with h | ⟨k, hk, h1, h2, h3, h4, h5⟩
        · exact Or.inl h
        · exact Or.inr ⟨k, Nat.lt_succ_of_lt hk, h1, h2, h3, h4, h5⟩

/-- The sweep over the candidates `lo, ..., hi` started from `(0, init)`: the final score
dominates every feasible score, and the final pair is either `(0, init)` or a feasible
candidate together with its score, which is above `init` and is not reached by any
smaller feasible candidate. -/
theorem sweep_spec {S : Type} [LinearOrder S] (feas : Int → Prop) [DecidablePred feas]
    (score : Int → S) (init : S) (lo hi : Int) :
    (∀ w : Int, lo ≤ w → w ≤ hi → feas w →
      score w ≤ ((candidates lo hi).foldl (sweep feas score) ((0 : Int), init)).2) ∧
    ((candidates lo hi).foldl (sweep feas score) ((0 : Int), init) = ((0 : Int), init) ∨
      (lo ≤ ((candidates lo hi).foldl (sweep feas score) ((0 : Int), init)).1 ∧
       ((candidates lo hi).foldl (sweep feas score) ((0 : Int), init)).1 ≤ hi ∧
       feas ((candidates lo hi).foldl (sweep feas score) ((0 : Int), init)).1 ∧
       score ((candidates lo hi).foldl (sweep feas score) ((0 : Int), init)).1
         = ((candidates lo hi).foldl (sweep feas score) ((0 : Int), init)).2 ∧
       init < ((candidates lo hi).foldl (sweep feas score) ((0 : Int), init)).2 ∧
       ∀ w : Int, lo ≤ w →
         w < ((candidates lo hi).foldl (sweep feas score) ((0 : Int), init)).1 → feas w →
         score w < ((candidates lo hi).foldl (sweep feas score) ((0 : Int), init)).2)) := by
  have inv := sweep_invariant feas score init lo (hi + 1 - lo).toNat
  unfold candidates
  generalize ((List.range (hi + 1 - lo).toNat).map (fun k : Nat => lo + (k : Int))).foldl
    (sweep feas score) ((0 : Int), init) = r at inv ⊢
  obtain ⟨hle, hor⟩ := inv
  refine ⟨?_, ?_⟩
  · intro w h1 h2 hf
    have hw : lo + (((w - lo).toNat : Nat) : Int) = w := by omega
    have := hle (w - lo).toNat (by omega) (by rw [hw]; exact hf)
    rw [hw] at this
    exact this
  · rcases hor with h | ⟨k, hk, h1, h2, h3, h4, h5⟩
    · exact Or.inl h
    · refine Or.inr ⟨by omega, by omega, by rw [h1]; exact h2, by rw [h1]; exact h3,
        by rw [← h3]; exact h4, ?_⟩
      intro w hw1 hw2 hf
      have hw : lo + (((w - lo).toNat : Nat) : Int) = w := by omega
      have := h5 (w - lo).toNat (by omega) (by rw [hw]; exact hf)
      rw [hw, h3] at this
      exact this

theorem lo_eq_min (window0 window1 : Int) :
    (if window1 < window0 then window1 else window0) = min window0 window1 := by
  split <;> omega

theorem hi_eq_max (window0 window1 : Int) :
    (if window1 < window0 then window0 else window1) = max window0 window1 := by
  split <;> omega

/-- The splice search is the sweep over the candidates
`min window0 window1, ..., max window0 window1`. -/
theorem autosplices16With_eq {S : Type} [LinearOrder S]
    (sim : Int → (Int → Int) → (Int → Int) → S) (init : S) (window0 window1 length1 : Int)
    (seq1 : Int → Int) (length2 : Int) (seq2 : Int → Int) :
    autosplices16With sim init window0 window1 length1 seq1 length2 seq2
      = (candidates (min window0 window1) (max window0 window1)).foldl
          (sweep (spliceFeasible length1 length2) (spliceScoreWith sim length1 seq1 seq2))
          ((0 : Int), init) := by
  unfold autosplices16With
  simp only []
  rw [lo_eq_min, hi_eq_max, foldl_autosplices16Body]

/-- When `0` is not a candidate, the period search returns the result of the sweep over
the candidates `min window0 window1, ..., max window0 window1`. -/
theorem autocorrs16With_eq {S : Type} [LinearOrder S]
    (sim : Int → (Int → Int) → (Int → Int) → S) (init : S) (window0 window1 length : Int)
    (seq : Int → Int) (h0 : ¬ (min window0 window1 ≤ 0 ∧ 0 ≤ max window0 window1)) :
    autocorrs16With sim init window0 window1 length seq
      = some ((candidates (min window0 window1) (max window0 window1)).foldl
          (sweep (corrFeasible (max window0 window1) length)
            (corrScoreWith sim (max window0 window1) seq))
          ((0 : Int), init)) := by
  unfold autocorrs16With
  simp only []
  rw [lo_eq_min, hi_eq_max]
  apply foldlM_autocorrs16Body
  intro w hw hz
  rw [mem_candidates] at hw
  rw [hz] at hw
  exact h0 hw

/-- When `0` is a candidate, the period search fails on the zero divisor of
`window1 % w`. -/
theorem autocorrs16With_zero {S : Type} [LinearOrder S]
    (sim : Int → (Int → Int) → (Int → Int) → S) (init : S) (window0 window1 length : Int)
    (seq : Int → Int) (h0 : min window0 window1 ≤ 0 ∧ 0 ≤ max window0 window1) :
    autocorrs16With sim init window0 window1 length seq = none := by
  unfold autocorrs16With
  simp only []
  rw [lo_eq_min, hi_eq_max]
  have hmem : (0 : Int) ∈ candidates (min window0 window1) (max window0 window1) :=
    (mem_candidates _ _ _).mpr h0
  obtain ⟨l1, l2, hl⟩ := List.append_of_mem hmem
  have hnone : ∀ (l : List Int) (st : Int × S),
      (0 :: l).foldlM (autocorrs16Body sim (max window0 window1) length seq) st = none := by
    intro l st
    rw [List.foldlM_cons, autocorrs16Body_zero]
    rfl
  have hgen : ∀ (l : List Int) (st : Int × S),
      (l ++ 0 :: l2).foldlM (autocorrs16Body sim (max window0 window1) length seq) st
        = none := by
    intro l
    induction l with
    | nil => intro st; exact hnone l2 st
    | cons w l ih =>
      intro st
      rw [List.cons_append, List.foldlM_cons]
      cases autocorrs16Body sim (max window0 window1) length seq st w with
      | none => rfl
      | some st2 => exact ih st2
  rw [hl]
  exact hgen l1 _

/-- The search `autosplices16` is the sweep over the candidates
`min window0 window1, ..., max window0 window1`. -/
theorem autosplices16_eq (window0 window1 length1 : Int) (seq1 : Int → Int) (length2 : Int)
    (seq2 : Int → Int) :
    autosplices16 Real.sqrt window0 window1 length1 seq1 length2 seq2
      = (candidates (min window0 window1) (max window0 window1)).foldl
          (sweep (spliceFeasible length1 length2) (spliceScore Real.sqrt length1 seq1 seq2))
          ((0 : Int), (-1 : ℝ)) :=
  autosplices16With_eq (calcsims16 Real.sqrt) (-1 : ℝ) window0 window1 length1 seq1 length2
    seq2

/-- When `0` is not a candidate, the search `autocorrs16` returns the result of the sweep
over the candidates `min window0 window1, ..., max window0 window1`. -/
theorem autocorrs16_eq (window0 window1 length : Int) (seq : Int → Int)
    (h0 : ¬ (min window0 window1 ≤ 0 ∧ 0 ≤ max window0 window1)) :
    autocorrs16 Real.sqrt window0 window1 length seq
      = some ((candidates (min window0 window1) (max window0 window1)).foldl
          (sweep (corrFeasible (max window0 window1) length)
            (corrScore Real.sqrt (max window0 window1) seq))
          ((0 : Int), (-1 : ℝ))) :=
  autocorrs16With_eq (calcsims16 Real.sqrt) (-1 : ℝ) window0 window1 length seq h0

/-- The `int` sum of the guard is exact as long as it stays in `[-2^31, 2^31)`. -/
theorem wrap32_of_range (x : Int) (h0 : -2147483648 ≤ x) (h1 : x < 2147483648) :
    wrap32 x = x := by
  unfold wrap32
  omega

/-- A non-negative sum that is at most `length` still passes the guard when it is taken
in `int`. -/
theorem wrap32_le_of_le (x length : Int) (hx : 0 ≤ x) (h : x ≤ length) :
    wrap32 x ≤ length := by
  unfold wrap32
  omega

/-- For candidates `0 ≤ w ≤ hi` with `hi < 2^30` the sum `w1 + w` does not overflow: the
guard of the code is the inequality `w1 + w ≤ length`. -/
theorem corrFeasible_iff (hi length w : Int) (hw : 0 ≤ w) (hwhi : w ≤ hi)
    (hsize : hi < 1073741824) :
    corrFeasible hi length w ↔ (hi - Int.tmod hi w) + w ≤ length := by
  unfold corrFeasible
  have hnn : 0 ≤ Int.tmod hi w := Int.tmod_nonneg w (by omega)
  have hle : Int.tmod hi w ≤ hi := by
    rcases Int.lt_or_le 0 w with hpos | hzero
    · rw [Int.tmod_eq_emod (by omega) (by omega)]
      have hq : 0 ≤ hi / w := Int.ediv_nonneg (by omega) (by omega)
      have hdiv := Int.emod_add_ediv hi w
      have hmul : 0 ≤ w * (hi / w) := Int.mul_nonneg (by omega) hq
      omega
    · have hw0 : w = 0 := by omega
      rw [hw0, Int.tmod_zero]
  rw [wrap32_of_range _ (by omega) (by omega)]

/-! ## Windows whose energies multiply to the square of the dot product -/

theorem calcsims16_eq_one_of_dot (window : Int) (a b : Int → Int)
    (h : (calcsims16Sums window a b : Sums ℝ).n1 * (calcsims16Sums window a b : Sums ℝ).n2
      = (calcsims16Sums window a b : Sums ℝ).dot * (calcsims16Sums window a b : Sums ℝ).dot)
    (hd : 0 < (calcsims16Sums window a b : Sums ℝ).dot) :
    calcsims16 Real.sqrt window a b = 1 := by
  unfold calcsims16
  simp only []
  rw [h, if_pos (ne_of_gt (mul_pos hd hd)), Real.sqrt_mul_self (le_of_lt hd)]
  exact div_self (ne_of_gt hd)

/-- A score with a non-positive dot product is not positive. -/
theorem calcsims16_nonpos_of_dot (window : Int) (a b : Int → Int)
    (hd : (calcsims16Sums window a b : Sums ℝ).dot ≤ 0) :
    calcsims16 Real.sqrt window a b ≤ 0 := by
  unfold calcsims16
  simp only []
  split
  · exact div_nonpos_of_nonpos_of_nonneg hd (Real.sqrt_nonneg _)
  · exact le_refl 0

/-- The accumulators of a one-sample window. -/
theorem sums_one (a b : Int → Int) :
    (calcsims16Sums 1 a b : Sums ℝ).n1 = ((a 0 : ℝ) / 32768) ^ 2 ∧
    (calcsims16Sums 1 a b : Sums ℝ).n2 = ((b 0 : ℝ) / 32768) ^ 2 ∧
    (calcsims16Sums 1 a b : Sums ℝ).dot = ((a 0 : ℝ) / 32768) * ((b 0 : ℝ) / 32768) := by
  rw [sums_n1_eq, sums_n2_eq, sums_dot_eq]
  have h1 : (1 : Int).toNat = 1 := rfl
  rw [h1]
  simp

/-- One-sample windows of the same sign have score `1`. -/
theorem calcsims16_one_pos (a b : Int → Int) (h : 0 < a 0 * b 0) :
    calcsims16 Real.sqrt 1 a b = 1 := by
  obtain ⟨h1, h2, h3⟩ := sums_one a b
  have hr : (0 : ℝ) < (a 0 : ℝ) * (b 0 : ℝ) := by exact_mod_cast h
  apply calcsims16_eq_one_of_dot
  · rw [h1, h2, h3]; ring
  · rw [h3]
    have : ((a 0 : ℝ) / 32768) * ((b 0 : ℝ) / 32768) = ((a 0 : ℝ) * (b 0 : ℝ)) / 1073741824 := by
      ring
    rw [this]
    positivity

/-- When some feasible candidate `p` reaches an upper bound `M > -1` of all scores, the
sweep returns the score `M` with the smallest feasible candidate that reaches it. -/
theorem sweep_reaches (feas : Int → Prop) [DecidablePred feas] (score : Int → ℝ) (lo hi : Int)
    (M : ℝ) (hM : ∀ w : Int, score w ≤ M) (hM1 : (-1 : ℝ) < M)
    (p : Int) (hp0 : lo ≤ p) (hp1 : p ≤ hi) (hf : feas p) (hs : score p = M) :
    ((candidates lo hi).foldl (sweep feas score) ((0 : Int), (-1 : ℝ))).2 = M ∧
    lo ≤ ((candidates lo hi).foldl (sweep feas score) ((0 : Int), (-1 : ℝ))).1 ∧
    ((candidates lo hi).foldl (sweep feas score) ((0 : Int), (-1 : ℝ))).1 ≤ p ∧
    feas ((candidates lo hi).foldl (sweep feas score) ((0 : Int), (-1 : ℝ))).1 ∧
    score ((candidates lo hi).foldl (sweep feas score) ((0 : Int), (-1 : ℝ))).1 = M ∧
    ∀ w : Int, lo ≤ w →
      w < ((candidates lo hi).foldl (sweep feas score) ((0 : Int), (-1 : ℝ))).1 → feas w →
      score w < M := by
  have spec := sweep_spec feas score (-1 : ℝ) lo hi
  generalize (candidates lo hi).foldl (sweep feas score) ((0 : Int), (-1 : ℝ)) = r at spec ⊢
  obtain ⟨hle, hor⟩ := spec
  have hge : M ≤ r.2 := hs ▸ hle p hp0 hp1 hf
  rcases hor with h | ⟨h1, _, h3, h4, _, h6⟩
  · rw [h] at hge
    exact absurd (lt_of_lt_of_le hM1 hge) (lt_irrefl _)
  · have heq : r.2 = M := le_antisymm (h4 ▸ hM r.1) hge
    refine ⟨heq, h1, ?_, h3, h4.trans heq, fun w hw1 hw2 hfw => heq ▸ h6 w hw1 hw2 hfw⟩
    by_contra hlt
    have := h6 p hp0 (not_le.mp hlt) hf
    rw [hs, heq] at this
    exact lt_irrefl _ this

/-! ## Concrete runs -/

/-- The period search with bounds `0, 0`: the only candidate is `w = 0`, and the
remainder `window1 % w` has a zero divisor. -/
theorem autocorrs16_zero_window (length : Int) (seq : Int → Int) :
    autocorrs16 Real.sqrt 0 0 length seq = none :=
  autocorrs16With_zero (calcsims16 Real.sqrt) (-1 : ℝ) 0 0 length seq (by decide)

/-- C1: for every window length and all sample sequences, the similarity score computed
by `calcsims16` over the reals lies in the closed interval `[-1, 1]`. -/
theorem calcsims16_bounds (w : Int) (a b : Int → Int) :
    -1 ≤ calcsims16 Real.sqrt w a b ∧ calcsims16 Real.sqrt w a b ≤ 1 :=
  ⟨calcsims16_ge w a b, calcsims16_le w a b⟩

/-- C2: for every window length `w > 0` and every sequence `a` whose first `w` samples
are not all zero (some index `0 ≤ i < w` has `a i ≠ 0`, which forces `w > 0`),
`calcsims16 w a a = 1` over the reals. -/
theorem calcsims16_self (w : Int) (a : Int → Int)
    (ha : ∃ i : Int, 0 ≤ i ∧ i < w ∧ a i ≠ 0) :
    calcsims16 Real.sqrt w a a = 1 :=
  calcsims16_self_of_pos w a (sums_n1_pos w a a ha)

/-- The scenario of C2: `similarity(4, [16384,16384,16384,16384], [16384,16384,16384,16384])`
is `1`. -/
theorem calcsims16_self_witness :
    (∃ i : Int, 0 ≤ i ∧ i < 4 ∧ ofList [16384, 16384, 16384, 16384] i ≠ 0) ∧
    calcsims16 Real.sqrt 4 (ofList [16384, 16384, 16384, 16384])
      (ofList [16384, 16384, 16384, 16384]) = 1 :=
  ⟨⟨0, by decide⟩,
    calcsims16_self 4 (ofList [16384, 16384, 16384, 16384]) ⟨0, by decide⟩⟩

/-- C3: for every window length `w` and all sequences `a`, `b`, the score is symmetric:
`calcsims16 w a b = calcsims16 w b a`. -/
theorem calcsims16_symm (w : Int) (a b : Int → Int) :
    calcsims16 Real.sqrt w a b = calcsims16 Real.sqrt w b a :=
  calcsims16_swap w a b

/-- C4: if the first `w` samples of `a` are all zero or the first `w` samples of `b` are
all zero (in particular when `w = 0`), then `calcsims16 w a b` is exactly `0`, and the
function with the division checked also returns `0`: no division by zero occurs. -/
theorem calcsims16_zero_energy (w : Int) (a b : Int → Int)
    (h : (∀ i : Int, 0 ≤ i → i < w → a i = 0) ∨ (∀ i : Int, 0 ≤ i → i < w → b i = 0)) :
    calcsims16 Real.sqrt w a b = 0 ∧ calcsims16Checked Real.sqrt w a b = some 0 := by
  have hprod : (calcsims16Sums w a b : Sums ℝ).n1 * (calcsims16Sums w a b : Sums ℝ).n2 = 0 := by
    rcases h with h | h
    · rw [sums_n1_zero w a b h, zero_mul]
    · rw [sums_n2_zero w a b h, mul_zero]
  have h0 := calcsims16_zero_of_prod w a b hprod
  exact ⟨h0, by rw [calcsims16Checked_eq, h0]⟩

/-- An instance of C4: a two-sample window of zeros against the buffer `[5, 7]`. -/
theorem calcsims16_zero_energy_witness :
    ((∀ i : Int, 0 ≤ i → i < 2 → ofList [0, 0] i = 0) ∨
      (∀ i : Int, 0 ≤ i → i < 2 → ofList [5, 7] i = 0)) ∧
    calcsims16 Real.sqrt 2 (ofList [0, 0]) (ofList [5, 7]) = 0 ∧
    calcsims16Checked Real.sqrt 2 (ofList [0, 0]) (ofList [5, 7]) = some 0 :=
  ⟨Or.inl (fun i h0 h1 => by interval_cases i <;> rfl),
    calcsims16_zero_energy 2 (ofList [0, 0]) (ofList [5, 7])
      (Or.inl (fun i h0 h1 => by interval_cases i <;> rfl))⟩

/-- C6: for `autosplices16` with `0 ≤ window0, window1`, whatever the scores computed by
the similarity function: the returned score is at least the score of every feasible
candidate `w` (one with `lo ≤ w ≤ hi`, `w ≤ lengthA` and `w ≤ lengthB`, scored by comparing
the last `w` samples of `seqA` with the first `w` samples of `seqB`); and whenever the
returned score is greater than the initial score (`-1` in `autosplices16`), the returned
window is a feasible candidate whose score is the returned score and no smaller feasible
candidate has that score. -/
theorem autosplices16_best {S : Type} [LinearOrder S]
    (sim : Int → (Int → Int) → (Int → Int) → S) (init : S) (window0 window1 lengthA : Int)
    (seqA : Int → Int) (lengthB : Int) (seqB : Int → Int) (h0 : 0 ≤ window0)
    (h1 : 0 ≤ window1) :
    (∀ w : Int, min window0 window1 ≤ w → w ≤ max window0 window1 →
      spliceFeasible lengthA lengthB w →
      spliceScoreWith sim lengthA seqA seqB w
        ≤ (autosplices16With sim init window0 window1 lengthA seqA lengthB seqB).2) ∧
    (init < (autosplices16With sim init window0 window1 lengthA seqA lengthB seqB).2 →
      0 ≤ (autosplices16With sim init window0 window1 lengthA seqA lengthB seqB).1 ∧
      min window0 window1
        ≤ (autosplices16With sim init window0 window1 lengthA seqA lengthB seqB).1 ∧
      (autosplices16With sim init window0 window1 lengthA seqA lengthB seqB).1
        ≤ max window0 window1 ∧
      spliceFeasible lengthA lengthB
        (autosplices16With sim init window0 window1 lengthA seqA lengthB seqB).1 ∧
      spliceScoreWith sim lengthA seqA seqB
          (autosplices16With sim init window0 window1 lengthA seqA lengthB seqB).1
        = (autosplices16With sim init window0 window1 lengthA seqA lengthB seqB).2 ∧
      ∀ w : Int, min window0 window1 ≤ w →
        w < (autosplices16With sim init window0 window1 lengthA seqA lengthB seqB).1 →
        spliceFeasible lengthA lengthB w →
        spliceScoreWith sim lengthA seqA seqB w
          ≠ (autosplices16With sim init window0 window1 lengthA seqA lengthB seqB).2) := by
  have spec := sweep_spec (spliceFeasible lengthA lengthB)
    (spliceScoreWith sim lengthA seqA seqB) init (min window0 window1) (max window0 window1)
  rw [← autosplices16With_eq] at spec
  refine ⟨spec.1, ?_⟩
  intro hgt
  rcases spec.2 with h | ⟨h1, h2, h3, h4, _, h6⟩
  · rw [h] at hgt
    exact absurd hgt (lt_irrefl _)
  · exact ⟨by omega, h1, h2, h3, h4, fun w hw1 hw2 hf => ne_of_lt (h6 w hw1 hw2 hf)⟩

/-- An instance of C6: `autosplices16` (the scores of `calcsims16` over the reals) with
bounds `1, 4` on `[10, 20, 30]` and `[10, 20, 30, 40]`; the feasible candidate `2` scores
at most the returned score. -/
theorem autosplices16_best_witness :
    (0 : Int) ≤ 1 ∧ (0 : Int) ≤ 4 ∧
    spliceScore Real.sqrt 3 spliceBufferA spliceBufferB 2
      ≤ (autosplices16 Real.sqrt 1 4 3 spliceBufferA 4 spliceBufferB).2 :=
  ⟨by decide, by decide,
    (autosplices16_best (calcsims16 Real.sqrt) (-1 : ℝ) 1 4 3 spliceBufferA 4 spliceBufferB
      (by decide) (by decide)).1 2 (by decide) (by decide) (by decide)⟩

/-- When `seqA` ends with the sample `30` and `seqB` begins with the sample `10`, the
splice search with bounds `1, 4` stops at the one-sample overlap: its score is already
`1`, and no later candidate is strictly better. -/
theorem autosplices16_tail_head (lengthA : Int) (seqA : Int → Int) (lengthB : Int)
    (seqB : Int → Int) (hA : 1 ≤ lengthA) (hB : 1 ≤ lengthB)
    (a3 : seqA (lengthA - 1) = 30) (b0 : seqB 0 = 10) :
    autosplices16 Real.sqrt 1 4 lengthA seqA lengthB seqB = ((1 : Int), (1 : ℝ)) := by
  have hscore : spliceScore Real.sqrt lengthA seqA seqB 1 = 1 := by
    apply calcsims16_one_pos
    have h : lengthA - 1 + 0 = lengthA - 1 := by omega
    simp only [h, a3, b0]
    decide
  have hr := sweep_reaches (spliceFeasible lengthA lengthB)
    (spliceScore Real.sqrt lengthA seqA seqB) (min 1 4) (max 1 4) 1
    (fun w => calcsims16_le _ _ _) (by norm_num) 1 (by decide) (by decide) ⟨hA, hB⟩ hscore
  rw [← autosplices16_eq] at hr
  obtain ⟨h2, h3, h4, _⟩ := hr
  have hmin : min (1 : Int) 4 = 1 := by decide
  rw [hmin] at h3
  exact Prod.ext (le_antisymm h4 h3) h2

/-- The score of the candidate `p` on a buffer of period `p`: the two compared windows
coincide, and they are not all zero. -/
theorem corrScore_periodic (hi length p : Int) (seq : Int → Int)
    (hper : ∀ i : Int, 0 ≤ i → i + p < length → seq (i + p) = seq i)
    (hnz : ∃ i : Int, 0 ≤ i ∧ i < p ∧ seq i ≠ 0)
    (hp : 1 ≤ p) (hhi : p ≤ hi) (hlen : (hi - hi % p) + p ≤ length) :
    corrFeasible hi length p ∧ corrScore Real.sqrt hi seq p = 1 := by
  have hmod : Int.tmod hi p = hi % p := Int.tmod_eq_emod (by omega) (by omega)
  have hq : 1 ≤ hi / p := Int.le_ediv_of_mul_le (by omega) (by omega)
  have hdiv := Int.emod_add_ediv hi p
  have hmul : p * 1 ≤ p * (hi / p) := Int.mul_le_mul_of_nonneg_left hq (by omega)
  have hw1 : p ≤ hi - hi % p := by omega
  unfold corrFeasible corrScore
  rw [hmod]
  refine ⟨wrap32_le_of_le _ _ (by omega) hlen, ?_⟩
  have hcongr : calcsims16 Real.sqrt (hi - hi % p) seq (fun i => seq (p + i))
      = calcsims16 Real.sqrt (hi - hi % p) seq seq := by
    apply calcsims16_congr
    · intro i _ _; rfl
    · intro i h0 h1
      have := hper i h0 (by omega)
      rw [Int.add_comm p i]
      exact this
  rw [hcongr]
  obtain ⟨i, h0, h1, hne⟩ := hnz
  exact calcsims16_self_of_pos _ _ (sums_n1_pos _ _ _ ⟨i, h0, by omega, hne⟩)

/-- The period search on a buffer of period `p` returns the score `1` and a window that
is a feasible candidate of score `1`, at most `p`. -/
theorem autocorrs16_periodic_run (window0 window1 length p : Int) (seq : Int → Int)
    (hper : ∀ i : Int, 0 ≤ i → i + p < length → seq (i + p) = seq i)
    (hnz : ∃ i : Int, 0 ≤ i ∧ i < p ∧ seq i ≠ 0)
    (h0 : 1 ≤ window0) (h0p : window0 ≤ p) (hp1 : p ≤ window1)
    (hlen : (window1 - window1 % p) + p ≤ length) :
    ∃ wmax : Int,
      autocorrs16 Real.sqrt window0 window1 length seq = some (wmax, (1 : ℝ)) ∧
      window0 ≤ wmax ∧ wmax ≤ p ∧ corrScore Real.sqrt window1 seq wmax = 1 := by
  have hmin : min window0 window1 = window0 := by omega
  have hmax : max window0 window1 = window1 := by omega
  obtain ⟨hf, hs⟩ := corrScore_periodic window1 length p seq hper hnz (by omega) hp1 hlen
  have hr := sweep_reaches (corrFeasible window1 length) (corrScore Real.sqrt window1 seq)
    window0 window1 1 (fun w => calcsims16_le _ _ _) (by norm_num) p h0p hp1 hf hs
  have heq := autocorrs16_eq window0 window1 length seq (by omega)
  rw [hmin, hmax] at heq
  obtain ⟨h2, h3, h4, _, h6, _⟩ := hr
  refine ⟨_, ?_, h3, h4, h6⟩
  rw [heq]
  exact congrArg some (Prod.ext rfl h2)

theorem periodicBuffer_periodic :
    ∀ i : Int, 0 ≤ i → i + 3 < 12 → periodicBuffer (i + 3) = periodicBuffer i := by
  intro i h0 h1
  have h9 : i < 9 := by omega
  interval_cases i <;> rfl

/-- On `periodicBuffer` the candidate `w = 2` of the search with upper bound `6` has a
negative dot product, hence a score that is not positive. -/
theorem periodicBuffer_score_two : corrScore Real.sqrt 6 periodicBuffer 2 ≤ 0 := by
  unfold corrScore
  have h6 : (6 : Int) - Int.tmod 6 2 = 6 := by decide
  rw [h6]
  apply calcsims16_nonpos_of_dot
  rw [sums_dot_eq]
  have hn : (6 : Int).toNat = 6 := rfl
  rw [hn]
  have e0 : periodicBuffer 0 = 1000 := rfl
  have e1 : periodicBuffer 1 = -1000 := rfl
  have e2 : periodicBuffer 2 = 500 := rfl
  have e3 : periodicBuffer 3 = 1000 := rfl
  have e4 : periodicBuffer 4 = -1000 := rfl
  have e5 : periodicBuffer 5 = 500 := rfl
  have e6 : periodicBuffer 6 = 1000 := rfl
  have e7 : periodicBuffer 7 = -1000 := rfl
  norm_num [Finset.sum_range_succ, e0, e1, e2, e3, e4, e5, e6, e7]

/-- Scenario 2 of the specification: `periodSearch(2, 6, 12, buffer)` returns the window
`3` with score `1`. -/
theorem autocorrs16_periodicBuffer :
    autocorrs16 Real.sqrt 2 6 12 periodicBuffer = some ((3 : Int), (1 : ℝ)) := by
  obtain ⟨wmax, hres, h1, h2, h3⟩ := autocorrs16_periodic_run 2 6 12 3 periodicBuffer
    periodicBuffer_periodic ⟨0, by decide⟩ (by decide) (by decide) (by decide) (by decide)
  have hne : wmax ≠ 2 := by
    intro h
    rw [h] at h3
    have := periodicBuffer_score_two
    rw [h3] at this
    norm_num at this
  have hw : wmax = 3 := by omega
  rw [hres, hw]

/-- C9 (amended): for every `seqA` whose last three samples are `[10, 20, 30]` and every
`seqB` whose first four samples are `[10, 20, 30, 40]`,
`spliceSearch(1, 4, len(seqA), seqA, len(seqB), seqB)` returns the best window `1` with
score `1`: the one-sample overlap `[30]` against `[10]` already has score `1`, and ties
keep the smallest window. -/
theorem autosplices16_scenario (lengthA : Int) (seqA : Int → Int) (lengthB : Int)
    (seqB : Int → Int) (hA : 3 ≤ lengthA) (hB : 4 ≤ lengthB)
    (hsA : ∀ i : Int, 0 ≤ i → i < 3 → seqA (lengthA - 3 + i) = spliceBufferA i)
    (hsB : ∀ i : Int, 0 ≤ i → i < 4 → seqB i = spliceBufferB i) :
    autosplices16 Real.sqrt 1 4 lengthA seqA lengthB seqB = ((1 : Int), (1 : ℝ)) := by
  have a3 : seqA (lengthA - 1) = 30 := by
    have h := hsA 2 (by decide) (by decide)
    have e : lengthA - 3 + 2 = lengthA - 1 := by omega
    rw [e] at h
    exact h
  have b0 : seqB 0 = 10 := hsB 0 (by decide) (by decide)
  exact autosplices16_tail_head lengthA seqA lengthB seqB (by omega) (by omega) a3 b0

/-- The concrete case of C9 (amended): `seqA = [10, 20, 30]`, `seqB = [10, 20, 30, 40]`. -/
theorem autosplices16_scenario_witness :
    (3 : Int) ≤ 3 ∧ (4 : Int) ≤ 4 ∧
    (∀ i : Int, 0 ≤ i → i < 3 → spliceBufferA (3 - 3 + i) = spliceBufferA i) ∧
    (∀ i : Int, 0 ≤ i → i < 4 → spliceBufferB i = spliceBufferB i) ∧
    autosplices16 Real.sqrt 1 4 3 spliceBufferA 4 spliceBufferB = ((1 : Int), (1 : ℝ)) :=
  ⟨by decide, by decide, fun i h0 h1 => by interval_cases i <;> rfl, fun _ _ _ => rfl,
    autosplices16_scenario 3 spliceBufferA 4 spliceBufferB (by decide) (by decide)
      (fun i h0 h1 => by interval_cases i <;> rfl) (fun _ _ _ => rfl)⟩

/-- C9 fails as stated: on `seqA = [10, 20, 30]` and `seqB = [10, 20, 30, 40]` the splice
search with bounds `1, 4` returns the window `1` (with score `1`), not the window `3`. -/
theorem autosplices16_scenario_counterexample :
    autosplices16 Real.sqrt 1 4 3 spliceBufferA 4 spliceBufferB = ((1 : Int), (1 : ℝ)) ∧
    autosplices16 Real.sqrt 1 4 3 spliceBufferA 4 spliceBufferB ≠ ((3 : Int), (1 : ℝ)) := by
  have h := autosplices16_tail_head 3 spliceBufferA 4 spliceBufferB (by decide) (by decide)
    rfl rfl
  refine ⟨h, ?_⟩
  rw [h]
  intro hne
  have h13 : (1 : Int) = 3 := congrArg Prod.fst hne
  exact absurd h13 (by decide)

/-- C10: for every buffer that is periodic with period `p` (`seq[i+p] = seq[i]` for all
indices in range) and not all zero within one period, and bounds with
`1 ≤ window0 ≤ p ≤ window1` and `(window1 - window1 mod p) + p ≤ length`, `autocorrs16`
returns a score equal to `1` and a best window that is at most `p`. -/
theorem autocorrs16_periodic (window0 window1 length p : Int) (seq : Int → Int)
    (hper : ∀ i : Int, 0 ≤ i → i + p < length → seq (i + p) = seq i)
    (hnz : ∃ i : Int, 0 ≤ i ∧ i < p ∧ seq i ≠ 0)
    (h0 : 1 ≤ window0) (h0p : window0 ≤ p) (hp1 : p ≤ window1)
    (hlen : (window1 - window1 % p) + p ≤ length) :
    ∃ wmax : Int, ∃ smax : ℝ,
      autocorrs16 Real.sqrt window0 window1 length seq = some (wmax, smax) ∧
      smax = 1 ∧ wmax ≤ p := by
  obtain ⟨wmax, hres, _, hle, _⟩ :=
    autocorrs16_periodic_run window0 window1 length p seq hper hnz h0 h0p hp1 hlen
  exact ⟨wmax, 1, hres, rfl, hle⟩

/-- The concrete case of C10: the 12-sample buffer `[1000, -1000, 500]` repeated four
times satisfies the hypotheses with `p = 3` and bounds `2, 6`, and
`periodSearch(2, 6, 12, buffer)` returns the best window `3` with score `1`. -/
theorem autocorrs16_periodic_witness :
    (∀ i : Int, 0 ≤ i → i + 3 < 12 → periodicBuffer (i + 3) = periodicBuffer i) ∧
    (∃ i : Int, 0 ≤ i ∧ i < 3 ∧ periodicBuffer i ≠ 0) ∧
    (1 : Int) ≤ 2 ∧ (2 : Int) ≤ 3 ∧ (3 : Int) ≤ 6 ∧ ((6 : Int) - 6 % 3) + 3 ≤ 12 ∧
    (∃ wmax : Int, ∃ smax : ℝ,
      autocorrs16 Real.sqrt 2 6 12 periodicBuffer = some (wmax, smax) ∧
      smax = 1 ∧ wmax ≤ 3) ∧
    autocorrs16 Real.sqrt 2 6 12 periodicBuffer = some ((3 : Int), (1 : ℝ)) :=
  ⟨periodicBuffer_periodic, ⟨0, by decide⟩, by decide, by decide, by decide, by decide,
    autocorrs16_periodic 2 6 12 3 periodicBuffer periodicBuffer_periodic ⟨0, by decide⟩
      (by decide) (by decide) (by decide) (by decide),
    autocorrs16_periodicBuffer⟩

/-! ## The entry point of the period search -/

/-- The validation of `pyautocorrs16` accepts `window0 = window1 = 0` on an empty string;
the core is invoked and divides by zero in `window1 % w`. -/
theorem pyautocorrs16_zero_window :
    pyautocorrs16 Real.sqrt 0 0 [] 0 = Except.ok none := by
  have hw : wrap32 (0 + 0) = 0 := by decide
  unfold pyautocorrs16
  simp only [List.length_nil, Int.Nat.cast_ofNat_Int, lt_irrefl, hw, sub_zero,
    false_or, or_self, if_false]
  rw [autocorrs16_zero_window]

/-- C11 fails on the code: the call `autocorrs16(0, 0, "", 0)` passes the validation of
`pyautocorrs16` (the answer is not the invalid-argument error), its candidate range
`[min(0,0), max(0,0)]` contains `w = 0`, and the core is invoked and divides by zero in
`window1 % w`. -/
theorem pyautocorrs16_accepts_zero :
    (min (0 : Int) 0 ≤ 0 ∧ (0 : Int) ≤ max 0 0) ∧
    pyautocorrs16 Real.sqrt 0 0 [] 0 = Except.ok none ∧
    autocorrs16 Real.sqrt 0 0 ((([] : List Int).length : Int) - 0)
      (fun i => ofList [] (0 + i)) = none :=
  ⟨by decide, pyautocorrs16_zero_window, autocorrs16_zero_window _ _⟩

/-- C12: the order of the two bounds is not significant, for both searches:
`autocorrs16(a, b, length, seq) = autocorrs16(b, a, length, seq)` and
`autosplices16(a, b, lengthA, seqA, lengthB, seqB)
= autosplices16(b, a, lengthA, seqA, lengthB, seqB)`, as pairs `(bestWindow, bestScore)`. -/
theorem search_bounds_comm (a b length : Int) (seq : Int → Int)
    (lengthA : Int) (seqA : Int → Int) (lengthB : Int) (seqB : Int → Int) :
    autocorrs16 Real.sqrt a b length seq = autocorrs16 Real.sqrt b a length seq ∧
    autosplices16 Real.sqrt a b lengthA seqA lengthB seqB
      = autosplices16 Real.sqrt b a lengthA seqA lengthB seqB := by
  constructor
  · unfold autocorrs16 autocorrs16With
    simp only []
    rw [lo_eq_min, hi_eq_max, lo_eq_min, hi_eq_max, min_comm, max_comm]
  · unfold autosplices16 autosplices16With
    simp only []
    rw [lo_eq_min, hi_eq_max, lo_eq_min, hi_eq_max, min_comm, max_comm]

/-! ## The source index of the overlap-add -/

/-- C15 fails on the code: with `outlen = 65536`, `length = 65536` and `i = 65535`
(all positive 32-bit `int` values, `0 ≤ i < outlen`) the product `i*length` overflows to
`-65536` and the source index `i*length/outlen` is `-1`, outside `[0, length)`. -/
theorem psolasIndex_overflow :
    (0 : Int) < 65536 ∧ (0 : Int) ≤ 65535 ∧ (65535 : Int) < 65536 ∧
    wrap32 (65535 * 65536) = -65536 ∧
    psolasIndex 65535 65536 65536 = -1 ∧
    psolasIndex 65535 65536 65536 < 0 := by
  decide

/-- Without overflow the index is the floor of `i*length/outlen` and lies in
`[0, length)`. -/
theorem psolasIndex_small (i length outlen : Int) (h0 : 0 ≤ i) (h1 : i < outlen)
    (hl : 0 < length) (hsmall : outlen * length < 2147483648) :
    psolasIndex i length outlen = i * length / outlen ∧
    0 ≤ psolasIndex i length outlen ∧ psolasIndex i length outlen < length := by
  have hprod0 : 0 ≤ i * length := Int.mul_nonneg h0 (le_of_lt hl)
  have hprod1 : i * length < outlen * length := Int.mul_lt_mul_of_pos_right h1 hl
  have hw : wrap32 (i * length) = i * length := by
    unfold wrap32
    omega
  have hidx : psolasIndex i length outlen = i * length / outlen := by
    unfold psolasIndex
    rw [hw, Int.tdiv_eq_ediv hprod0 (by omega)]
  rw [hidx]
  refine ⟨rfl, Int.ediv_nonneg hprod0 (by omega), ?_⟩
  apply Int.ediv_lt_of_lt_mul (by omega)
  rw [Int.mul_comm length outlen]
  exact hprod1

/-! ## The indices read by the searches -/

theorem mem_calcsims16Reads (window j : Int) :
    j ∈ calcsims16Reads window ↔ 0 ≤ j ∧ j < window := by
  unfold calcsims16Reads
  rw [List.mem_map]
  constructor
  · rintro ⟨k, hk, rfl⟩
    have hk2 : k < window.toNat := List.mem_range.mp hk
    omega
  · rintro ⟨h1, h2⟩
    exact ⟨j.toNat, List.mem_range.mpr (by omega), by omega⟩

/-- The score computed by `calcsims16` only depends on the samples at the indices listed
by `calcsims16Reads`. -/
theorem calcsims16_reads_sound (window : Int) (a b c d : Int → Int)
    (hac : ∀ j ∈ calcsims16Reads window, a j = c j)
    (hbd : ∀ j ∈ calcsims16Reads window, b j = d j) :
    calcsims16 Real.sqrt window a b = calcsims16 Real.sqrt window c d :=
  calcsims16_congr window a b c d
    (fun i h0 h1 => hac i ((mem_calcsims16Reads window i).mpr ⟨h0, h1⟩))
    (fun i h0 h1 => hbd i ((mem_calcsims16Reads window i).mpr ⟨h0, h1⟩))

theorem mem_autocorrs16Reads (hi length w j : Int) :
    j ∈ autocorrs16Reads hi length w ↔
      corrFeasible hi length w ∧
        ∃ i : Int, 0 ≤ i ∧ i < hi - Int.tmod hi w ∧ (j = i ∨ j = w + i) := by
  unfold autocorrs16Reads
  by_cases hf : corrFeasible hi length w
  · rw [if_pos hf, List.mem_flatMap]
    constructor
    · rintro ⟨i, hi1, hj⟩
      rw [mem_calcsims16Reads] at hi1
      simp only [List.mem_cons, List.mem_singleton, List.not_mem_nil, or_false] at hj
      exact ⟨hf, i, hi1.1, hi1.2, hj⟩
    · rintro ⟨_, i, h0, h1, hj⟩
      refine ⟨i, (mem_calcsims16Reads _ _).mpr ⟨h0, h1⟩, ?_⟩
      simp only [List.mem_cons, List.mem_singleton, List.not_mem_nil, or_false]
      exact hj
  · rw [if_neg hf]
    simp [hf]

/-- Every index read by `autocorrs16` for a candidate `1 ≤ w ≤ hi` lies in `[0, length)`
as long as `hi < 2^30`, where the `int` sum of the guard is exact. -/
theorem autocorrs16Reads_bounds (hi length w j : Int) (hw : 1 ≤ w) (hwhi : w ≤ hi)
    (hsize : hi < 1073741824) (hj : j ∈ autocorrs16Reads hi length w) :
    0 ≤ j ∧ j < length := by
  rw [mem_autocorrs16Reads] at hj
  obtain ⟨hf, i, h0, h1, hji⟩ := hj
  have hf2 := (corrFeasible_iff hi length w (by omega) hwhi hsize).mp hf
  rcases hji with h | h <;> omega

/-- The score of a feasible candidate `1 ≤ w ≤ hi` of `autocorrs16`, `hi < 2^30`, only
depends on the samples of the buffer at the indices `[0, length)`. -/
theorem corrScore_frame (hi length w : Int) (seq seq2 : Int → Int) (hw : 1 ≤ w)
    (hwhi : w ≤ hi) (hsize : hi < 1073741824) (hf : corrFeasible hi length w)
    (hagree : ∀ j : Int, 0 ≤ j → j < length → seq j = seq2 j) :
    corrScore Real.sqrt hi seq w = corrScore Real.sqrt hi seq2 w := by
  unfold corrScore
  have hf2 := (corrFeasible_iff hi length w (by omega) hwhi hsize).mp hf
  apply calcsims16_congr
  · intro i h0 h1
    exact hagree i h0 (by omega)
  · intro i h0 h1
    exact hagree (w + i) (by omega) (by omega)

/-- The score of a feasible candidate of `autosplices16` only depends on the samples of
the two buffers at the indices `[0, length1)` and `[0, length2)`. -/
theorem spliceScore_frame (length1 length2 w : Int) (seq1 seq1b seq2 seq2b : Int → Int)
    (hf : spliceFeasible length1 length2 w)
    (h1 : ∀ j : Int, 0 ≤ j → j < length1 → seq1 j = seq1b j)
    (h2 : ∀ j : Int, 0 ≤ j → j < length2 → seq2 j = seq2b j) :
    spliceScore Real.sqrt length1 seq1 seq2 w = spliceScore Real.sqrt length1 seq1b seq2b w := by
  unfold spliceScore
  obtain ⟨hf1, hf2⟩ := hf
  apply calcsims16_congr
  · intro i h0 hi
    exact h1 (length1 - w + i) (by omega) (by omega)
  · intro i h0 hi
    exact h2 i h0 (by omega)

/-- Two sweeps whose scores agree on the feasible candidates of the list agree. -/
theorem foldl_sweep_congr (feas : Int → Prop) [DecidablePred feas] (score score2 : Int → ℝ)
    (l : List Int) (h : ∀ w ∈ l, feas w → score w = score2 w) (st : Int × ℝ) :
    l.foldl (sweep feas score) st = l.foldl (sweep feas score2) st := by
  induction l generalizing st with
  | nil => rfl
  | cons w l ih =>
    have hstep : sweep feas score st w = sweep feas score2 st w := by
      unfold sweep
      by_cases hf : feas w
      · rw [if_pos hf, if_pos hf, h w (List.mem_cons_self w l) hf]
      · rw [if_neg hf, if_neg hf]
    rw [List.foldl_cons, List.foldl_cons, hstep]
    exact ih (fun v hv => h v (List.mem_cons_of_mem w hv)) _

theorem autosplices16Reads1_bounds (length1 length2 w j : Int)
    (hj : j ∈ autosplices16Reads1 length1 length2 w) : 0 ≤ j ∧ j < length1 := by
  unfold autosplices16Reads1 at hj
  by_cases hf : spliceFeasible length1 length2 w
  · rw [if_pos hf, List.mem_map] at hj
    obtain ⟨i, hi, rfl⟩ := hj
    rw [mem_calcsims16Reads] at hi
    obtain ⟨hf1, hf2⟩ := hf
    omega
  · rw [if_neg hf] at hj
    exact absurd hj (List.not_mem_nil j)

theorem autosplices16Reads2_bounds (length1 length2 w j : Int)
    (hj : j ∈ autosplices16Reads2 length1 length2 w) : 0 ≤ j ∧ j < length2 := by
  unfold autosplices16Reads2 at hj
  by_cases hf : spliceFeasible length1 length2 w
  · rw [if_pos hf, mem_calcsims16Reads] at hj
    obtain ⟨hf1, hf2⟩ := hf
    omega
  · rw [if_neg hf] at hj
    exact absurd hj (List.not_mem_nil j)

/-- With bounds in `[1, 2^30)` the result of `autocorrs16` only depends on the samples of
the buffer at the indices `[0, length)`. -/
theorem autocorrs16_frame (window0 window1 length : Int) (seq seq2 : Int → Int)
    (h0 : 1 ≤ window0) (h1 : 1 ≤ window1) (hsize : max window0 window1 < 1073741824)
    (hagree : ∀ j : Int, 0 ≤ j → j < length → seq j = seq2 j) :
    autocorrs16 Real.sqrt window0 window1 length seq
      = autocorrs16 Real.sqrt window0 window1 length seq2 := by
  rw [autocorrs16_eq window0 window1 length seq (by omega),
    autocorrs16_eq window0 window1 length seq2 (by omega)]
  apply congrArg some
  apply foldl_sweep_congr
  intro w hw hf
  rw [mem_candidates] at hw
  exact corrScore_frame _ length w seq seq2 (by omega) hw.2 hsize hf hagree

/-- The result of `autosplices16` only depends on the samples of the two buffers at the
indices `[0, length1)` and `[0, length2)`. -/
theorem autosplices16_frame (window0 window1 length1 length2 : Int)
    (seq1 seq1b seq2 seq2b : Int → Int)
    (h1 : ∀ j : Int, 0 ≤ j → j < length1 → seq1 j = seq1b j)
    (h2 : ∀ j : Int, 0 ≤ j → j < length2 → seq2 j = seq2b j) :
    autosplices16 Real.sqrt window0 window1 length1 seq1 length2 seq2
      = autosplices16 Real.sqrt window0 window1 length1 seq1b length2 seq2b := by
  rw [autosplices16_eq, autosplices16_eq]
  apply foldl_sweep_congr
  intro w _ hf
  exact spliceScore_frame length1 length2 w seq1 seq1b seq2 seq2b hf h1 h2

/-- As long as the bounds of the period search stay below `2^30`, the searches never read
outside their buffers: every candidate of `autocorrs16` (bounds `≥ 1`) is a nonzero
divisor and every index read for it lies in `[0, length)`; every index read by
`autosplices16` lies in `[0, lengthA)` for `seqA` and in `[0, lengthB)` for `seqB`. -/
theorem search_reads_small (window0 window1 length lengthA lengthB : Int) :
    (1 ≤ window0 → 1 ≤ window1 → max window0 window1 < 1073741824 →
      ∀ w : Int, min window0 window1 ≤ w → w ≤ max window0 window1 →
        w ≠ 0 ∧ ∀ j ∈ autocorrs16Reads (max window0 window1) length w, 0 ≤ j ∧ j < length) ∧
    (∀ w : Int,
      (∀ j ∈ autosplices16Reads1 lengthA lengthB w, 0 ≤ j ∧ j < lengthA) ∧
      (∀ j ∈ autosplices16Reads2 lengthA lengthB w, 0 ≤ j ∧ j < lengthB)) := by
  refine ⟨fun h0 h1 hsize w hw1 hw2 => ⟨by omega, fun j hj => ?_⟩,
    fun w => ⟨fun j hj => ?_, fun j hj => ?_⟩⟩
  · exact autocorrs16Reads_bounds _ length w j (by omega) hw2 hsize hj
  · exact autosplices16Reads1_bounds lengthA lengthB w j hj
  · exact autosplices16Reads2_bounds lengthA lengthB w j hj

/-- C16 fails on the code for the period search: with `window0 = window1 = length = 2^30`
(bounds `≥ 1`, accepted by the entry point on a buffer of `2^30` samples) the `int` sum
`w1 + w = 2^31` of the guard overflows to `-2^31`, the guard `w1 + w <= length` passes,
and `calcsims16(w1, seq, seq+w)` reads the indices `w + i` for `i < w1 = 2^30`: the
indices `2^30`, ..., `2^31 - 1`, none of which is in `[0, length)`. -/
theorem autocorrs16Reads_overflow :
    (1 : Int) ≤ 1073741824 ∧
    wrap32 ((1073741824 - Int.tmod 1073741824 1073741824) + 1073741824) = -2147483648 ∧
    corrFeasible 1073741824 1073741824 1073741824 ∧
    (1073741824 : Int) ∈ autocorrs16Reads 1073741824 1073741824 1073741824 ∧
    (2147483647 : Int) ∈ autocorrs16Reads 1073741824 1073741824 1073741824 ∧
    (1073741824 : Int) ≤ 1073741824 ∧ (1073741824 : Int) ≤ 2147483647 := by
  refine ⟨by decide, by decide, by decide, ?_, ?_, by decide, by decide⟩
  · rw [mem_autocorrs16Reads]
    exact ⟨by decide, 0, by decide, by decide, Or.inr (by decide)⟩
  · rw [mem_autocorrs16Reads]
    exact ⟨by decide, 1073741823, by decide, by decide, Or.inr (by decide)⟩

/-! ## The raised-cosine weights -/

/-- The weight of the second segment: `hann(i, 2n) = (1 - cos(π i / n)) / 2`. -/
theorem hann_second (i n : Int) (hn : n ≠ 0) :
    hann Real.cos Real.pi i (n * 2) = (1 - Real.cos (Real.pi * (i : ℝ) / (n : ℝ))) / 2 := by
  have hn2 : (n : ℝ) ≠ 0 := Int.cast_ne_zero.mpr hn
  unfold hann
  have harg : 2 * Real.pi * ((i : Int) : ℝ) / (((n * 2 : Int)) : ℝ)
      = Real.pi * (i : ℝ) / (n : ℝ) := by
    push_cast
    field_simp
    ring
  rw [harg]

/-- The weight of the first segment: `hann(i + n, 2n) = (1 + cos(π i / n)) / 2`. -/
theorem hann_first (i n : Int) (hn : n ≠ 0) :
    hann Real.cos Real.pi (i + n) (n * 2)
      = (1 + Real.cos (Real.pi * (i : ℝ) / (n : ℝ))) / 2 := by
  have hn2 : (n : ℝ) ≠ 0 := Int.cast_ne_zero.mpr hn
  rw [hann_second (i + n) n hn]
  have harg : Real.pi * (((i + n : Int)) : ℝ) / (n : ℝ)
      = Real.pi * (i : ℝ) / (n : ℝ) + Real.pi := by
    push_cast
    field_simp
    ring
  rw [harg, Real.cos_add_pi]
  ring

/-- The two weights are complementary. -/
theorem hann_complementary (i n : Int) (hn : n ≠ 0) :
    hann Real.cos Real.pi (i + n) (n * 2) + hann Real.cos Real.pi i (n * 2) = 1 := by
  rw [hann_first i n hn, hann_second i n hn]
  ring

theorem hann_nonneg (i n : Int) : 0 ≤ hann Real.cos Real.pi i n := by
  unfold hann
  have := Real.cos_le_one (2 * Real.pi * ((i : Int) : ℝ) / ((n : Int) : ℝ))
  linarith

theorem hann_le_one (i n : Int) : hann Real.cos Real.pi i n ≤ 1 := by
  unfold hann
  have := Real.neg_one_le_cos (2 * Real.pi * ((i : Int) : ℝ) / ((n : Int) : ℝ))
  linarith

/-- The cosine of `π i / n` decreases strictly in `i` over `0 ≤ i < n`. -/
theorem cos_ramp_lt (i j n : Int) (hi : 0 ≤ i) (hij : i < j) (hj : j < n) :
    Real.cos (Real.pi * (j : ℝ) / (n : ℝ)) < Real.cos (Real.pi * (i : ℝ) / (n : ℝ)) := by
  have hn : (0 : ℝ) < (n : ℝ) := by exact_mod_cast (by omega : (0 : Int) < n)
  have hi2 : (0 : ℝ) ≤ (i : ℝ) := by exact_mod_cast hi
  have hij2 : (i : ℝ) < (j : ℝ) := by exact_mod_cast hij
  have hj2 : (j : ℝ) < (n : ℝ) := by exact_mod_cast hj
  have hpi := Real.pi_pos
  have hx0 : 0 ≤ Real.pi * (i : ℝ) / (n : ℝ) := by positivity
  have hxy : Real.pi * (i : ℝ) / (n : ℝ) < Real.pi * (j : ℝ) / (n : ℝ) := by
    apply div_lt_div_of_pos_right _ hn
    exact mul_lt_mul_of_pos_left hij2 hpi
  have hy1 : Real.pi * (j : ℝ) / (n : ℝ) ≤ Real.pi := by
    rw [div_le_iff₀ hn]
    exact mul_le_mul_of_nonneg_left (le_of_lt hj2) (le_of_lt hpi)
  exact Real.strictAntiOn_cos ⟨hx0, le_trans (le_of_lt hxy) hy1⟩
    ⟨le_trans hx0 (le_of_lt hxy), hy1⟩ hxy

/-! ## The accumulated value and the narrowing cast -/

/-- For `0 ≤ i < outlen < 2^30` the `int` expressions `i+outlen` and `outlen*2` passed to
`hann` do not overflow. -/
theorem psolas16_args_small (outlen i : Int) (h0 : 0 ≤ i) (h1 : i < outlen)
    (h30 : outlen < 1073741824) :
    wrap32 (i + outlen) = i + outlen ∧ wrap32 (outlen * 2) = outlen * 2 :=
  ⟨wrap32_of_range _ (by omega) (by omega), wrap32_of_range _ (by omega) (by omega)⟩

theorem wrap16_of_range (x : Int) (h0 : -32768 ≤ x) (h1 : x ≤ 32767) : wrap16 x = x := by
  unfold wrap16
  omega

/-- The truncation of an integer value is that integer. -/
theorem truncZ_intCast (z : Int) : truncZ ((z : Int) : ℝ) = z := by
  unfold truncZ
  split
  · exact Int.floor_intCast z
  · exact Int.ceil_intCast z

/-! ## The output buffer of the overlap-add -/

/-- Storing `f 0, ..., f (n-1)` at the positions `0, ..., n-1` of a buffer of at least `n`
samples replaces its first `n` samples. -/
theorem foldl_set_range (f : Nat → Int) (n : Nat) (out : List Int) (h : n ≤ out.length) :
    ((List.range n).map (fun i : Nat => (i, f i))).foldl
        (fun (o : List Int) (st : Nat × Int) => o.set st.1 st.2) out
      = (List.range n).map f ++ out.drop n := by
  induction n with
  | zero => simp
  | succ n ih =>
    have hn : n < out.length := h
    rw [List.range_succ, List.map_append, List.foldl_append, ih (le_of_lt hn)]
    simp only [List.map_cons, List.map_nil, List.foldl_cons, List.foldl_nil]
    have hlen : ((List.range n).map f).length ≤ n := by simp
    have hsub : n - ((List.range n).map f).length = 0 := by simp
    rw [List.set_append_right n (f n) hlen, hsub, List.drop_eq_getElem_cons hn,
      List.set_cons_zero, List.map_append, List.append_assoc]
    rfl

/-- On a buffer of exactly `outlen` samples, `psolas16` returns the list of the values
`(short)v` of the indices `0, ..., outlen-1`. -/
theorem psolas16_eq_map {F : Type} [LinearOrderedField F] [FloorRing F] {cos : F → F}
    {pi : F} (outlen : Int) (out : List Int) (length1 : Int) (seq1 : Int → Int)
    (length2 : Int) (seq2 : Int → Int) (hlen : out.length = outlen.toNat) :
    psolas16 cos pi outlen out length1 seq1 length2 seq2
      = (List.range outlen.toNat).map (fun i : Nat =>
          toShort (psolas16Value cos pi outlen length1 seq1 length2 seq2 (i : Int))) := by
  unfold psolas16 psolas16Trace
  rw [foldl_set_range _ _ out (le_of_eq hlen.symm), ← hlen, List.drop_length,
    List.append_nil]

theorem psolas16_getElem? {F : Type} [LinearOrderedField F] [FloorRing F] {cos : F → F}
    {pi : F} (outlen : Int) (out : List Int) (length1 : Int) (seq1 : Int → Int)
    (length2 : Int) (seq2 : Int → Int) (hlen : out.length = outlen.toNat) (i : Nat)
    (hi : (i : Int) < outlen) :
    (psolas16 cos pi outlen out length1 seq1 length2 seq2)[i]?
      = some (toShort (psolas16Value cos pi outlen length1 seq1 length2 seq2 (i : Int))) := by
  rw [psolas16_eq_map outlen out length1 seq1 length2 seq2 hlen, List.getElem?_map,
    List.getElem?_range (by omega)]
  rfl

/-- The stores of `psolas16` go to the positions `0, ..., outlen-1`, in this order. -/
theorem psolas16Trace_positions (outlen : Int) (length1 : Int) (seq1 : Int → Int)
    (length2 : Int) (seq2 : Int → Int) :
    (psolas16Trace Real.cos Real.pi outlen length1 seq1 length2 seq2).map Prod.fst
      = List.range outlen.toNat := by
  unfold psolas16Trace
  rw [List.map_map]
  exact List.map_id _

theorem count_range (n k : Nat) : (List.range n).count k = if k < n then 1 else 0 := by
  split
  · rename_i h
    exact List.count_eq_one_of_mem (List.nodup_range n) (List.mem_range.mpr h)
  · rename_i h
    exact List.count_eq_zero_of_not_mem (fun hm => h (List.mem_range.mp hm))

theorem mallocShorts_length (garbage : Nat → Int) (n : Nat) :
    (mallocShorts garbage n).length = n := by
  unfold mallocShorts
  simp

/-- The value accumulated when only the second segment is present. -/
theorem psolas16Value_second {F : Type} [LinearOrderedField F] {cos : F → F} {pi : F}
    (outlen : Int) (seq1 : Int → Int) (length2 : Int) (seq2 : Int → Int) (i : Int)
    (h2 : 0 < length2) :
    psolas16Value cos pi outlen 0 seq1 length2 seq2 i
      = ((seq2 (psolasIndex i length2 outlen) : Int) : F)
          * hann cos pi i (wrap32 (outlen * 2)) := by
  unfold psolas16Value
  simp only [lt_irrefl, if_false, if_pos h2, zero_add]

/-- The value accumulated over the reals when both segments read the same sample `s`, for
`0 ≤ i < outlen < 2^30`: the two weights add up to `1`, and the value is `s`. -/
theorem psolas16Value_same (outlen length : Int) (seq : Int → Int) (i : Int)
    (hi0 : 0 ≤ i) (hi1 : i < outlen) (h30 : outlen < 1073741824) (hl : 0 < length) :
    psolas16Value Real.cos Real.pi outlen length seq length seq i
      = ((seq (psolasIndex i length outlen) : Int) : ℝ) := by
  obtain ⟨ha, hb⟩ := psolas16_args_small outlen i hi0 hi1 h30
  unfold psolas16Value
  simp only [if_pos hl, zero_add]
  rw [ha, hb, ← mul_add, hann_complementary i outlen (by omega), mul_one]

/-- The narrowing cast of a non-negative value `v` with `z ≤ v < z + 1` is `z` reduced
to 16 bits. -/
theorem toShort_of_floor (v : ℝ) (z : Int) (hz0 : 0 ≤ z) (h0 : (z : ℝ) ≤ v)
    (h1 : v < (z : ℝ) + 1) : toShort v = wrap16 z := by
  have hv : (0 : ℝ) ≤ v := le_trans (by exact_mod_cast hz0) h0
  have hfl : Int.floor v = z := Int.floor_eq_iff.mpr ⟨h0, h1⟩
  unfold toShort truncZ
  rw [if_pos hv, hfl]

/-! ## Scenario 4 of the specification -/

/-- The narrowing cast of a non-negative value `v` with `z ≤ v < z + 1`, `z` a 16-bit
value, is `z`. -/
theorem toShort_eq_of_floor (v : ℝ) (z : Int) (hz0 : 0 ≤ z) (hz1 : z ≤ 32767)
    (h0 : (z : ℝ) ≤ v) (h1 : v < (z : ℝ) + 1) : toShort v = z := by
  rw [toShort_of_floor v z hz0 h0 h1]
  exact wrap16_of_range z (by omega) hz1

theorem sqrt_two_bounds : (1.414 : ℝ) < Real.sqrt 2 ∧ Real.sqrt 2 < 1.415 := by
  constructor
  · rw [Real.lt_sqrt (by norm_num)]
    norm_num
  · rw [Real.sqrt_lt' (by norm_num)]
    norm_num

/-- The four weights `hann(i, 8)`, `i = 0, 1, 2, 3`, over the reals. -/
theorem hann_eighths :
    hann Real.cos Real.pi 0 (4 * 2) = 0 ∧
    hann Real.cos Real.pi 1 (4 * 2) = (1 - Real.sqrt 2 / 2) / 2 ∧
    hann Real.cos Real.pi 2 (4 * 2) = 1 / 2 ∧
    hann Real.cos Real.pi 3 (4 * 2) = (1 + Real.sqrt 2 / 2) / 2 := by
  refine ⟨?_, ?_, ?_, ?_⟩
  · rw [hann_second 0 4 (by decide)]
    norm_num
  · rw [hann_second 1 4 (by decide)]
    have h : Real.pi * ((1 : Int) : ℝ) / ((4 : Int) : ℝ) = Real.pi / 4 := by
      push_cast
      ring
    rw [h, Real.cos_pi_div_four]
  · rw [hann_second 2 4 (by decide)]
    have h : Real.pi * ((2 : Int) : ℝ) / ((4 : Int) : ℝ) = Real.pi / 2 := by
      push_cast
      ring
    rw [h, Real.cos_pi_div_two]
    norm_num
  · rw [hann_second 3 4 (by decide)]
    have h : Real.pi * ((3 : Int) : ℝ) / ((4 : Int) : ℝ) = Real.pi - Real.pi / 4 := by
      push_cast
      ring
    rw [h, Real.cos_pi_sub, Real.cos_pi_div_four]
    ring

/-- Scenario 4 of the specification with the exact `π` in the place of `M_PI`:
the output would be `[0, 29, 150, 341]`. -/
theorem psolas16_rampBuffer (out : List Int) (hlen : out.length = 4) :
    psolas16 Real.cos Real.pi 4 out 0 (ofList []) 4 rampBuffer = [0, 29, 150, 341] := by
  obtain ⟨e0, e1, e2, e3⟩ := hann_eighths
  obtain ⟨s1, s2⟩ := sqrt_two_bounds
  have hw : wrap32 (4 * 2) = 4 * 2 := by decide
  have hidx : psolasIndex 0 4 4 = 0 ∧ psolasIndex 1 4 4 = 1 ∧ psolasIndex 2 4 4 = 2
      ∧ psolasIndex 3 4 4 = 3 := by decide
  have hbuf : rampBuffer 0 = 100 ∧ rampBuffer 1 = 200 ∧ rampBuffer 2 = 300
      ∧ rampBuffer 3 = 400 := ⟨rfl, rfl, rfl, rfl⟩
  have v0 : toShort (psolas16Value Real.cos Real.pi 4 0 (ofList []) 4 rampBuffer 0) = 0 := by
    rw [psolas16Value_second 4 _ 4 _ 0 (by decide), hw, e0, mul_zero]
    exact toShort_eq_of_floor 0 0 (by decide) (by decide) (by norm_num) (by norm_num)
  have v1 : toShort (psolas16Value Real.cos Real.pi 4 0 (ofList []) 4 rampBuffer 1) = 29 := by
    rw [psolas16Value_second 4 _ 4 _ 1 (by decide), hw, e1, hidx.2.1, hbuf.2.1]
    apply toShort_eq_of_floor _ 29 (by decide) (by decide)
    · push_cast; linarith
    · push_cast; linarith
  have v2 : toShort (psolas16Value Real.cos Real.pi 4 0 (ofList []) 4 rampBuffer 2) = 150 := by
    rw [psolas16Value_second 4 _ 4 _ 2 (by decide), hw, e2, hidx.2.2.1, hbuf.2.2.1]
    apply toShort_eq_of_floor _ 150 (by decide) (by decide)
    · push_cast; norm_num
    · push_cast; norm_num
  have v3 : toShort (psolas16Value Real.cos Real.pi 4 0 (ofList []) 4 rampBuffer 3) = 341 := by
    rw [psolas16Value_second 4 _ 4 _ 3 (by decide), hw, e3, hidx.2.2.2, hbuf.2.2.2]
    apply toShort_eq_of_floor _ 341 (by decide) (by decide)
    · push_cast; linarith
    · push_cast; linarith
  rw [psolas16_eq_map 4 out 0 _ 4 _ hlen]
  have hr : List.range (4 : Int).toNat = [0, 1, 2, 3] := rfl
  rw [hr]
  simp only [List.map_cons, List.map_nil, Nat.cast_ofNat, Nat.cast_zero, Nat.cast_one]
  rw [v0, v1, v2, v3]

/-! ## The constant `M_PI` -/

/-- On arguments inside their buffers (which pass its validation), `pypsolas16` returns
the buffer filled by `psolas16`. -/
theorem pypsolas16_valid (outlen offset1 window1 : Int) (data1 : List Int)
    (offset2 window2 : Int) (data2 : List Int) (garbage : Nat → Int) (hout : 0 < outlen)
    (hvalid : ¬ (window1 < 0 ∨ window2 < 0 ∨ offset1 < 0
      ∨ (data1.length : Int) < offset1 + window1
      ∨ offset2 < 0 ∨ (data2.length : Int) < offset2 + window2)) :
    pypsolas16 Real.cos Real.pi outlen offset1 window1 data1 offset2 window2 data2 garbage
      = Except.ok (psolas16 Real.cos Real.pi outlen (mallocShorts garbage outlen.toNat)
          window1 (fun i => ofList data1 (offset1 + i))
          window2 (fun i => ofList data2 (offset2 + i))) := by
  have h1 : offset1 + window1 ≤ (data1.length : Int) := by omega
  have h2 : offset2 + window2 ≤ (data2.length : Int) := by omega
  have hw1 := wrap32_le_of_le _ _ (by omega) h1
  have hw2 := wrap32_le_of_le _ _ (by omega) h2
  have hcode : ¬ (window1 < 0 ∨ window2 < 0 ∨ offset1 < 0
      ∨ (data1.length : Int) < wrap32 (offset1 + window1)
      ∨ offset2 < 0 ∨ (data2.length : Int) < wrap32 (offset2 + window2)) := by omega
  unfold pypsolas16
  simp only []
  rw [if_neg hcode, if_neg (not_le.mpr hout)]

/-- C14: for every `outLength > 0`, `psolas16` stores to exactly the output positions
`0, ..., outLength-1`, each exactly once (in this order), so that on a buffer of
`outLength` samples every sample is written and the result has exactly `outLength`
samples; the buffer returned by `pypsolas16` on valid arguments has exactly `outLength`
samples, whatever the content of the allocated memory. -/
theorem psolas16_writes (outLength : Int) (out : List Int) (lengthA : Int)
    (seqA : Int → Int) (lengthB : Int) (seqB : Int → Int) (hout : 0 < outLength)
    (hbuf : (out.length : Int) = outLength) :
    (psolas16Trace Real.cos Real.pi outLength lengthA seqA lengthB seqB).map Prod.fst
        = List.range outLength.toNat ∧
    (∀ k : Nat,
      ((psolas16Trace Real.cos Real.pi outLength lengthA seqA lengthB seqB).map Prod.fst).count k
        = if (k : Int) < outLength then 1 else 0) ∧
    ((psolas16 Real.cos Real.pi outLength out lengthA seqA lengthB seqB).length : Int)
        = outLength ∧
    (∀ i : Nat, (i : Int) < outLength →
      (psolas16 Real.cos Real.pi outLength out lengthA seqA lengthB seqB)[i]?
        = some (toShort (psolas16Value Real.cos Real.pi outLength lengthA seqA lengthB seqB
            (i : Int)))) ∧
    (∀ (offset1 window1 : Int) (data1 : List Int) (offset2 window2 : Int) (data2 : List Int)
        (garbage : Nat → Int),
      ¬ (window1 < 0 ∨ window2 < 0 ∨ offset1 < 0 ∨ (data1.length : Int) < offset1 + window1
          ∨ offset2 < 0 ∨ (data2.length : Int) < offset2 + window2) →
      ∃ buf : List Int,
        pypsolas16 Real.cos Real.pi outLength offset1 window1 data1 offset2 window2 data2
          garbage = Except.ok buf ∧ (buf.length : Int) = outLength) := by
  have hbuf2 : out.length = outLength.toNat := by omega
  have hpos := psolas16Trace_positions outLength lengthA seqA lengthB seqB
  refine ⟨hpos, ?_, ?_, ?_, ?_⟩
  · intro k
    rw [hpos, count_range]
    by_cases hk : k < outLength.toNat
    · rw [if_pos hk, if_pos (by omega)]
    · rw [if_neg hk, if_neg (by omega)]
  · rw [psolas16_eq_map outLength out lengthA seqA lengthB seqB hbuf2, List.length_map,
      List.length_range]
    omega
  · intro i hi
    exact psolas16_getElem? outLength out lengthA seqA lengthB seqB hbuf2 i hi
  · intro offset1 window1 data1 offset2 window2 data2 garbage hvalid
    refine ⟨_, pypsolas16_valid outLength offset1 window1 data1 offset2 window2 data2
      garbage hout hvalid, ?_⟩
    rw [psolas16_eq_map _ _ _ _ _ _ (mallocShorts_length garbage _), List.length_map,
      List.length_range]
    omega

/-- An instance of C14 with `outLength = 4`: the stores go to the positions
`0, 1, 2, 3`, and the result has four samples. -/
theorem psolas16_writes_witness :
    (0 : Int) < 4 ∧ (([7, 7, 7, 7] : List Int).length : Int) = 4 ∧
    (psolas16Trace Real.cos Real.pi 4 0 (ofList []) 4 rampBuffer).map Prod.fst = [0, 1, 2, 3] ∧
    ((psolas16 Real.cos Real.pi 4 [7, 7, 7, 7] 0 (ofList []) 4 rampBuffer).length : Int) = 4 :=
  ⟨by decide, rfl,
    (psolas16_writes 4 [7, 7, 7, 7] 0 (ofList []) 4 rampBuffer (by decide) rfl).1,
    (psolas16_writes 4 [7, 7, 7, 7] 0 (ofList []) 4 rampBuffer (by decide) rfl).2.2.1⟩

/-- C17: for every `outLength > 0`, the weight applied to `seqA`,
`hann(i+outLength, 2*outLength)`, is strictly decreasing in `i` over `0 ≤ i < outLength`,
and the weight applied to `seqB`, `hann(i, 2*outLength)`, is strictly increasing over the
same range; both weights lie in `[0, 1]`, and at `i = 0` the `seqA` weight is `1` and the
`seqB` weight is `0` (over the reals). -/
theorem hann_weights (outLength : Int) (hout : 0 < outLength) :
    (∀ i j : Int, 0 ≤ i → i < j → j < outLength →
      hann Real.cos Real.pi (j + outLength) (outLength * 2)
        < hann Real.cos Real.pi (i + outLength) (outLength * 2)) ∧
    (∀ i j : Int, 0 ≤ i → i < j → j < outLength →
      hann Real.cos Real.pi i (outLength * 2) < hann Real.cos Real.pi j (outLength * 2)) ∧
    (∀ i : Int,
      0 ≤ hann Real.cos Real.pi (i + outLength) (outLength * 2) ∧
      hann Real.cos Real.pi (i + outLength) (outLength * 2) ≤ 1 ∧
      0 ≤ hann Real.cos Real.pi i (outLength * 2) ∧
      hann Real.cos Real.pi i (outLength * 2) ≤ 1) ∧
    hann Real.cos Real.pi (0 + outLength) (outLength * 2) = 1 ∧
    hann Real.cos Real.pi 0 (outLength * 2) = 0 := by
  have hne : outLength ≠ 0 := ne_of_gt hout
  refine ⟨?_, ?_, ?_, ?_, ?_⟩
  · intro i j hi hij hj
    rw [hann_first i outLength hne, hann_first j outLength hne]
    linarith [cos_ramp_lt i j outLength hi hij hj]
  · intro i j hi hij hj
    rw [hann_second i outLength hne, hann_second j outLength hne]
    linarith [cos_ramp_lt i j outLength hi hij hj]
  · intro i
    exact ⟨hann_nonneg _ _, hann_le_one _ _, hann_nonneg _ _, hann_le_one _ _⟩
  · rw [hann_first 0 outLength hne]
    norm_num
  · rw [hann_second 0 outLength hne]
    norm_num

/-- An instance of C17 with `outLength = 4`, between the output indices `1` and `2`. -/
theorem hann_weights_witness :
    (0 : Int) < 4 ∧
    hann Real.cos Real.pi (2 + 4) (4 * 2) < hann Real.cos Real.pi (1 + 4) (4 * 2) ∧
    hann Real.cos Real.pi 1 (4 * 2) < hann Real.cos Real.pi 2 (4 * 2) :=
  ⟨by decide, (hann_weights 4 (by decide)).1 1 2 (by decide) (by decide) (by decide),
    (hann_weights 4 (by decide)).2.1 1 2 (by decide) (by decide) (by decide)⟩

/-- The sample stored by `psolas16` over the reals when both segments are the same
segment `s`, for `0 ≤ i < outLength < 2^30`: the sample of `s` at the source index
computed by the code. -/
theorem psolas16_self_sample (outLength L : Int) (s : Int → Int) (i : Int)
    (hi0 : 0 ≤ i) (hi1 : i < outLength) (hsize : outLength < 1073741824) (hL : 0 < L)
    (hs : IsShort s) :
    toShort (psolas16Value Real.cos Real.pi outLength L s L s i)
      = s (psolasIndex i L outLength) := by
  rw [psolas16Value_same outLength L s i hi0 hi1 hsize hL]
  unfold toShort
  rw [truncZ_intCast]
  exact wrap16_of_range _ (hs _).1 (hs _).2

/-- As long as the index product does not overflow (`outLength * L < 2^31`,
`outLength < 2^30`), crossfading a segment with itself reproduces it over the reals,
nearest-lower-neighbour resampled: `out[i] = s[floor(i*L/outLength)]`. -/
theorem psolas16_self_small (outLength L : Int) (s : Int → Int) (out : List Int)
    (hsize : outLength < 1073741824) (hL : 0 < L) (hsmall : outLength * L < 2147483648)
    (hs : IsShort s) (hbuf : (out.length : Int) = outLength) (i : Nat)
    (hi : (i : Int) < outLength) :
    (psolas16 Real.cos Real.pi outLength out L s L s)[i]?
      = some (s ((i : Int) * L / outLength)) := by
  rw [psolas16_getElem? outLength out L s L s (by omega) i hi,
    psolas16_self_sample outLength L s i (Int.ofNat_nonneg i) hi hsize hL hs,
    (psolasIndex_small i L outLength (Int.ofNat_nonneg i) hi hL hsmall).1]

theorem isShort_spikeSegment : IsShort spikeSegment := by
  intro j
  unfold spikeSegment
  split <;> decide

/-- C20 fails on the code for large buffers: with `outLength = L = 65536` and the
segment `spikeSegment` (a single `1` at index `65535`) the product `i*L` overflows at
`i = 65535`, the source index is `-1`, and `psolas16` stores `out[65535] = 0` although
`s[floor(65535*65536/65536)] = s[65535] = 1`.  (The two weights are complementary for
every `n > 0`, see `hann_complementary`, and without overflow the segment is reproduced,
see `psolas16_self_small`.) -/
theorem psolas16_self_overflow :
    psolasIndex 65535 65536 65536 = -1 ∧
    (psolas16 Real.cos Real.pi 65536 (mallocShorts (fun _ => 0) 65536) 65536 spikeSegment
        65536 spikeSegment)[65535]? = some 0 ∧
    spikeSegment (65535 * 65536 / 65536) = 1 := by
  refine ⟨by decide, ?_, by decide⟩
  have hlen : (mallocShorts (fun _ => 0) 65536).length = (65536 : Int).toNat :=
    mallocShorts_length _ _
  rw [psolas16_getElem? 65536 _ 65536 spikeSegment 65536 spikeSegment hlen 65535 (by decide),
    psolas16_self_sample 65536 65536 spikeSegment ((65535 : Nat) : Int) (by decide)
      (by decide) (by decide) (by decide) isShort_spikeSegment]
  rfl

/-! ## Independence of scale -/

theorem sumsWith_foldl (c : ℝ) (seq1 seq2 : Int → Int) (n : Nat) :
    (List.range n).foldl (calcsims16StepWith c seq1 seq2)
        ({ n1 := 0, n2 := 0, dot := 0 } : Sums ℝ)
      = { n1 := ∑ i in Finset.range n, ((seq1 (i : Int) : ℝ) / c) ^ 2,
          n2 := ∑ i in Finset.range n, ((seq2 (i : Int) : ℝ) / c) ^ 2,
          dot := ∑ i in Finset.range n, ((seq1 (i : Int) : ℝ) / c) * ((seq2 (i : Int) : ℝ) / c) } := by
  induction n with
  | zero => simp
  | succ n ih =>
    rw [List.range_succ, List.foldl_append, ih]
    simp [calcsims16StepWith, Finset.sum_range_succ, pow_two]

/-- The source function is the instance `c = 32768` of `calcsims16With`. -/
theorem calcsims16_eq_with (window : Int) (seq1 seq2 : Int → Int) :
    calcsims16 Real.sqrt window seq1 seq2
      = calcsims16With Real.sqrt 32768 window seq1 seq2 := by
  rfl

/-- With a positive normalising constant the score is the quotient of the raw sums
`Σ a·b / sqrt (Σ a² · Σ b²)`, or `0` when `Σ a² · Σ b² = 0`. -/
theorem calcsims16With_raw (c : ℝ) (hc : 0 < c) (window : Int) (a b : Int → Int) :
    calcsims16With Real.sqrt c window a b
      = if (∑ i in Finset.range window.toNat, ((a (i : Int) : ℝ)) ^ 2)
            * (∑ i in Finset.range window.toNat, ((b (i : Int) : ℝ)) ^ 2) ≠ 0 then
          (∑ i in Finset.range window.toNat, (a (i : Int) : ℝ) * (b (i : Int) : ℝ))
            / Real.sqrt ((∑ i in Finset.range window.toNat, ((a (i : Int) : ℝ)) ^ 2)
              * (∑ i in Finset.range window.toNat, ((b (i : Int) : ℝ)) ^ 2))
        else 0 := by
  have hc0 : c ≠ 0 := ne_of_gt hc
  have hc2 : (0 : ℝ) < c ^ 2 := by positivity
  have e1 : ∑ i in Finset.range window.toNat, ((a (i : Int) : ℝ) / c) ^ 2
      = (∑ i in Finset.range window.toNat, ((a (i : Int) : ℝ)) ^ 2) / c ^ 2 := by
    rw [Finset.sum_div]
    exact Finset.sum_congr rfl (fun i _ => div_pow _ _ _)
  have e2 : ∑ i in Finset.range window.toNat, ((b (i : Int) : ℝ) / c) ^ 2
      = (∑ i in Finset.range window.toNat, ((b (i : Int) : ℝ)) ^ 2) / c ^ 2 := by
    rw [Finset.sum_div]
    exact Finset.sum_congr rfl (fun i _ => div_pow _ _ _)
  have e3 : ∑ i in Finset.range window.toNat, ((a (i : Int) : ℝ) / c) * ((b (i : Int) : ℝ) / c)
      = (∑ i in Finset.range window.toNat, (a (i : Int) : ℝ) * (b (i : Int) : ℝ)) / c ^ 2 := by
    rw [Finset.sum_div]
    exact Finset.sum_congr rfl (fun i _ => by rw [div_mul_div_comm, ← pow_two])
  unfold calcsims16With
  rw [sumsWith_foldl]
  simp only []
  rw [e1, e2, e3]
  generalize (∑ i in Finset.range window.toNat, ((a (i : Int) : ℝ)) ^ 2) = N1
  generalize (∑ i in Finset.range window.toNat, ((b (i : Int) : ℝ)) ^ 2) = N2
  generalize (∑ i in Finset.range window.toNat, (a (i : Int) : ℝ) * (b (i : Int) : ℝ)) = D
  have hprod : N1 / c ^ 2 * (N2 / c ^ 2) = (N1 * N2) / (c ^ 2) ^ 2 := by
    rw [div_mul_div_comm, ← pow_two]
  rw [hprod]
  by_cases h : N1 * N2 = 0
  · rw [h, zero_div]
    simp
  · have hne : N1 * N2 / (c ^ 2) ^ 2 ≠ 0 := div_ne_zero h (by positivity)
    rw [if_pos hne, if_pos h, Real.sqrt_div' _ (by positivity), Real.sqrt_sq (le_of_lt hc2),
      div_div_div_cancel_right₀ (ne_of_gt hc2)]

/-- C18: the similarity score is independent of scale: multiplying the first sequence by
a positive integer `k` does not change `calcsims16`, and replacing the normalising
constant `32768` by any positive constant `c` does not change it either (over the
reals). -/
theorem calcsims16_scale (w : Int) (a b : Int → Int) (k : Int) (hk : 0 < k) (c : ℝ)
    (hc : 0 < c) :
    calcsims16 Real.sqrt w (fun i => k * a i) b = calcsims16 Real.sqrt w a b ∧
    calcsims16With Real.sqrt c w a b = calcsims16 Real.sqrt w a b := by
  have h32 : (0 : ℝ) < 32768 := by norm_num
  constructor
  · rw [calcsims16_eq_with, calcsims16_eq_with, calcsims16With_raw 32768 h32,
      calcsims16With_raw 32768 h32]
    have hkr : (0 : ℝ) < (k : ℝ) := by exact_mod_cast hk
    have e1 : ∑ i in Finset.range w.toNat, (((k * a (i : Int) : Int)) : ℝ) ^ 2
        = (k : ℝ) ^ 2 * ∑ i in Finset.range w.toNat, ((a (i : Int) : ℝ)) ^ 2 := by
      rw [Finset.mul_sum]
      exact Finset.sum_congr rfl (fun i _ => by push_cast; ring)
    have e3 : ∑ i in Finset.range w.toNat, (((k * a (i : Int) : Int)) : ℝ) * (b (i : Int) : ℝ)
        = (k : ℝ) * ∑ i in Finset.range w.toNat, (a (i : Int) : ℝ) * (b (i : Int) : ℝ) := by
      rw [Finset.mul_sum]
      exact Finset.sum_congr rfl (fun i _ => by push_cast; ring)
    rw [e1, e3]
    generalize (∑ i in Finset.range w.toNat, ((a (i : Int) : ℝ)) ^ 2) = N1
    generalize (∑ i in Finset.range w.toNat, ((b (i : Int) : ℝ)) ^ 2) = N2
    generalize (∑ i in Finset.range w.toNat, (a (i : Int) : ℝ) * (b (i : Int) : ℝ)) = D
    have hprod : (k : ℝ) ^ 2 * N1 * N2 = (k : ℝ) ^ 2 * (N1 * N2) := by ring
    rw [hprod]
    by_cases h : N1 * N2 = 0
    · rw [h, mul_zero, if_neg (not_not.mpr rfl), if_neg (not_not.mpr rfl)]
    · have hne : (k : ℝ) ^ 2 * (N1 * N2) ≠ 0 := mul_ne_zero (by positivity) h
      rw [if_pos hne, if_pos h, Real.sqrt_mul (by positivity), Real.sqrt_sq (le_of_lt hkr),
        mul_div_mul_left _ _ (ne_of_gt hkr)]
  · rw [calcsims16_eq_with, calcsims16With_raw c hc, calcsims16With_raw 32768 h32]

/-- An instance of C18: doubling `[10, 20, 30]`, and the normalising constant `1`. -/
theorem calcsims16_scale_witness :
    (0 : Int) < 2 ∧ (0 : ℝ) < 1 ∧
    calcsims16 Real.sqrt 3 (fun i => 2 * spliceBufferA i) spliceBufferB
      = calcsims16 Real.sqrt 3 spliceBufferA spliceBufferB ∧
    calcsims16With Real.sqrt 1 3 spliceBufferA spliceBufferB
      = calcsims16 Real.sqrt 3 spliceBufferA spliceBufferB :=
  ⟨by decide, one_pos,
    calcsims16_scale 3 spliceBufferA spliceBufferB 2 (by decide) 1 one_pos⟩

end Wavcorr
